import Mathlib

/-!
Shallow embedding of the SoPlex core routines named by the specification,
together with theorems settling the spec claims against the code.

Conventions of the embedding:
* `Real` (IEEE double in the C++) and `Rational` are both modelled as `ℚ`;
  the claims under study are about control flow, comparisons and exact
  rational arithmetic, not about floating-point rounding.
* C++ arrays become `List`s; out-of-range reads use `List.getD` with
  default `0` (the C++ asserts indices in range).
* Each definition mirrors one function of the source, statement by
  statement; the source file and function are named in its doc comment.
-/

set_option linter.unusedVariables false

namespace Soplex

/-! ## SLUFactor (src/slufactor.cpp): status, stability, thresholds, change -/

/-- Status values of the LU factorization (subset of `SLinSolver::Status`
used by `slufactor.cpp`). -/
inductive SluStatus where
  | OK
  | UNLOADED
  | SINGULAR
  | ERR
deriving DecidableEq, Repr

/-- Update type of the factorization (`SLUFactor::UpdateType`). -/
inductive UpdateType where
  | FOREST_TOMLIN
  | ETA
deriving DecidableEq, Repr

/-- The scalar state of `SLUFactor`/`CLUFactor` that the claims touch:
thresholds, stability data, the update flag and the status. -/
structure SLUFactor where
  minThreshold  : ℚ
  lastThreshold : ℚ
  minStability  : ℚ
  maxabs        : ℚ
  initMaxabs    : ℚ
  usetup        : Bool
  updateType    : UpdateType
  stat          : SluStatus
deriving DecidableEq, Repr

/-- `SLUFactor::stability()` (slufactor.cpp:239-247): `0` when the status is
not `OK`, `1` when `maxabs < initMaxabs`, else `initMaxabs / maxabs`. -/
def SLUFactor.stability (s : SLUFactor) : ℚ :=
  if s.stat ≠ SluStatus.OK then 0
  else if s.maxabs < s.initMaxabs then 1
  else s.initMaxabs / s.maxabs

/-- `betterThreshold` (slufactor.cpp:777-786): raise a Markowitz threshold. -/
def betterThreshold (th : ℚ) : ℚ :=
  if th < 1/10 then th * 10
  else if th < 9/10 then (th + 1) / 2
  else if th < 999/1000 then 99999/100000
  else th

/-- `SLUFactor::clear()` (slufactor.cpp:312-361), restricted to the scalar
fields of the model (the memory management is not modelled). -/
def SLUFactor.clear (s : SLUFactor) : SLUFactor :=
  { s with
    usetup        := false
    maxabs        := 1
    initMaxabs    := 1
    minThreshold  := 1/100
    lastThreshold := 1/100
    minStability  := 1/100
    stat          := SluStatus.UNLOADED }

/-- `SLUFactor::solveRight4update` (slufactor.cpp:69-105): fills the update
vectors and sets `usetup = true` (the numerical solve itself is carried out
by `CLUFactor::vSolveRight4update`, outside the modelled state). -/
def SLUFactor.solveRight4update (s : SLUFactor) : SLUFactor :=
  { s with usetup := true }

/-- `SLUFactor::solve2right4update` (slufactor.cpp:107-154): likewise sets
`usetup = true`. -/
def SLUFactor.solve2right4update (s : SLUFactor) : SLUFactor :=
  { s with usetup := true }

/-- Which of the five code paths `SLUFactor::change` took. -/
inductive ChangePath where
  | forestPrepared   -- usetup and FOREST_TOMLIN: use the prepared forest vector
  | etaPrepared      -- usetup and ETA: use the prepared eta vector
  | etaGiven         -- no usetup, explicit eta argument passed
  | forestScratch    -- no usetup, FOREST_TOMLIN: recompute via solveLright
  | etaScratch       -- no usetup, ETA: recompute via solveRight
deriving DecidableEq, Repr

/-- `SLUFactor::change` (slufactor.cpp:259-310).  `etaArg` records whether
the optional eta-vector argument `e` was non-null.  Besides performing the
update (not modelled), every path falls through to `usetup = false`; the
second component reports the path taken. -/
def SLUFactor.change (s : SLUFactor) (etaArg : Bool) : SLUFactor × ChangePath :=
  if s.usetup then
    if s.updateType = UpdateType.FOREST_TOMLIN then
      ({ s with usetup := false }, ChangePath.forestPrepared)
    else
      ({ s with usetup := false }, ChangePath.etaPrepared)
  else if etaArg then
    ({ s with updateType := UpdateType.ETA, usetup := false }, ChangePath.etaGiven)
  else if s.updateType = UpdateType.FOREST_TOMLIN then
    ({ s with usetup := false }, ChangePath.forestScratch)
  else
    ({ s with usetup := false }, ChangePath.etaScratch)

/-- The factor-retry loop of `SLUFactor::load` (slufactor.cpp:860-877).
`stab th` abstracts the stability obtained by `factor(matrix, th, epsilon)`
(the factorization is deterministic in the matrix and the threshold; the
matrix is fixed during `load`).  State: current `lastThreshold` and
`minStability`.  Each round: factor; stop when `stability() >= minStability`;
otherwise raise the threshold via `betterThreshold`, stop if it did not
change, else halve `minStability` and retry. -/
def SLUFactor.loadRefactorLoop (stab : ℚ → ℚ) : ℕ → ℚ → ℚ → ℚ × ℚ
  | 0, th, ms => (th, ms)
  | fuel + 1, th, ms =>
    if ms ≤ stab th then (th, ms)
    else
      let b := betterThreshold th
      if th = b then (b, ms)
      else SLUFactor.loadRefactorLoop stab fuel b (ms / 2)

/-- `n`-fold application of `betterThreshold`. -/
def betterIter : ℕ → ℚ → ℚ
  | 0, th => th
  | n + 1, th => betterIter n (betterThreshold th)

/-- The threshold chain from `th` reaches a `betterThreshold` fixed point in
at most `n` steps. -/
def reachesFixIn (th : ℚ) (n : ℕ) : Prop :=
  betterThreshold (betterIter n th) = betterIter n th

instance (th : ℚ) (n : ℕ) : Decidable (reachesFixIn th n) := by
  unfold reachesFixIn; infer_instance

/-! ## Refinement driver scalars (src/soplex/solverational.hpp) -/

/-- Modelled from the spec: `Rational::powRound` is not part of the sources
under study; §4.5 of the specification states that under `POWERSCALING`
the scaling factors are "rounded down to a power of two".  For `x > 0` this
returns the largest integer power of two that is at most `x`; nonpositive
inputs are returned unchanged. -/
def powRound (x : ℚ) : ℚ :=
  if 1 ≤ x then 2 ^ (Nat.log 2 ⌊x⌋.toNat)
  else if 0 < x then ((2 : ℚ) ^ (Nat.clog 2 ⌈x⁻¹⌉.toNat))⁻¹
  else x

/-- `SoPlexBase<R>::_computePrimalScalingFactor` (solverational.hpp:877-906).
Arguments: the `POWERSCALING` boolean parameter, `_rationalMaxscaleincr`,
the incoming `primalScale` and the three primal-side violations.  Returns
the pair (`maxScale`, new `primalScale`). -/
def computePrimalScalingFactor (ps : Bool) (maxscaleincr primalScale
    boundsViolation sideViolation redCostViolation : ℚ) : ℚ × ℚ :=
  let maxScale := primalScale * maxscaleincr
  let p1 := if sideViolation < boundsViolation then boundsViolation else sideViolation
  let p2 := if p1 < redCostViolation then redCostViolation else p1
  let p3 :=
    if 0 < p2 then
      let pinv := p2⁻¹
      if maxScale < pinv then maxScale else pinv
    else maxScale
  let p4 := if ps then powRound p3 else p3
  (maxScale, p4)

/-- `SoPlexBase<R>::_computeDualScalingFactor` (solverational.hpp:912-951).
Arguments: `POWERSCALING`, `_rationalMaxscaleincr`, the already updated
`primalScale`, the incoming `dualScale` and the two dual-side violations.
Returns the pair (`maxScale`, new `dualScale`); the final `_modObj`
rescaling only multiplies a vector by the result and is not modelled. -/
def computeDualScalingFactor (ps : Bool) (maxscaleincr primalScale dualScale
    redCostViolation dualViolation : ℚ) : ℚ × ℚ :=
  let maxScale := dualScale * maxscaleincr
  let d1 := if dualViolation < redCostViolation then redCostViolation else dualViolation
  let d2 :=
    if 0 < d1 then
      let dinv := d1⁻¹
      if maxScale < dinv then maxScale else dinv
    else maxScale
  let d3 := if ps then powRound d2 else d2
  let d4 := if primalScale < d3 then primalScale else d3
  let d5 := if d4 < 1 then 1 else d4
  (maxScale, d5)

/-- The update `_applyScaledBounds` (solverational.hpp:955-996) performs on
its by-reference `primalScale` argument: its first statement clamps the
scale to at least `1` (lines 958-959); the rest of the function only
rescales the bound vectors. -/
def applyScaledBoundsScale (primalScale : ℚ) : ℚ :=
  if primalScale < 1 then 1 else primalScale

/-- The scaling block of one refinement iteration (solverational.hpp:
1630-1642): `_computePrimalScalingFactor`, then `_applyScaledBounds` /
`_applyScaledSides` (which clamp `primalScale` to at least `1` through the
reference), then `_computeDualScalingFactor` on the clamped scale.
Returns the iteration's final (`primalScale`, `dualScale`). -/
def refinementScalingFactors (ps : Bool) (maxscaleincr primalScale dualScale
    boundsViolation sideViolation redCostViolation dualViolation : ℚ) : ℚ × ℚ :=
  let p := (computePrimalScalingFactor ps maxscaleincr primalScale
    boundsViolation sideViolation redCostViolation).2
  let p1 := applyScaledBoundsScale p
  let d := (computeDualScalingFactor ps maxscaleincr p1 dualScale
    redCostViolation dualViolation).2
  (p1, d)

/-- `SoPlexBase<R>::_checkRefinementProgress` (solverational.hpp:713-744).
Returns (`maxViolation`, new `bestViolation`, new `numFailedRefinements`). -/
def checkRefinementProgress (boundsViolation sideViolation redCostViolation
    dualViolation bestViolation violationImprovementFactor : ℚ)
    (numFailedRefinements : ℕ) : ℚ × ℚ × ℕ :=
  let m1 := boundsViolation
  let m2 := if m1 < sideViolation then sideViolation else m1
  let m3 := if m2 < redCostViolation then redCostViolation else m2
  let m4 := if m3 < dualViolation then dualViolation else m3
  let b1 := bestViolation / violationImprovementFactor
  if b1 < m4 then (m4, b1 * violationImprovementFactor, numFailedRefinements + 1)
  else (m4, m4, numFailedRefinements)

/-- `SoPlexBase<R>::_isRefinementOver` (solverational.hpp:672-707).
Returns (`primalFeasible`, `dualFeasible`, terminate?).  The call
`_isSolveStopped(stoppedTime, stoppedIter)` is abstracted by the two
booleans it reports. -/
def isRefinementOver (rationalFeastol rationalOpttol boundsViolation
    sideViolation redCostViolation dualViolation : ℚ) (minRounds : ℤ)
    (stoppedTime stoppedIter : Bool) (numFailedRefinements : ℕ) :
    Bool × Bool × Bool :=
  let pf : Bool := decide (boundsViolation ≤ rationalFeastol ∧ sideViolation ≤ rationalFeastol)
  let df : Bool := decide (redCostViolation ≤ rationalOpttol ∧ dualViolation ≤ rationalOpttol)
  let over : Bool :=
    if pf ∧ df ∧ minRounds < 0 then true
    else if stoppedTime ∨ stoppedIter ∨ 2 < numFailedRefinements then true
    else false
  (pf, df, over)

/-- The value of `violationImprovementFactor` in `_performOptIRStable`
(solverational.hpp:1543). -/
def violationImprovementFactorVal : ℚ := 16

/-! ## `_storeRealSolutionAsRational` (solverational.hpp:393-456) -/

/-- Variable basis status (`SPxSolverBase<R>::VarStatus`). -/
inductive VarStatus where
  | ON_UPPER
  | ON_LOWER
  | FIXED
  | ZERO
  | BASIC
  | UNDEFINED
deriving DecidableEq, Repr

/-- Basis-status rewrite performed by `_storeRealSolutionAsRational` on each
column and each row: `FIXED` becomes `ON_LOWER`, all else is kept. -/
def storeStatus (st : VarStatus) : VarStatus :=
  if st = VarStatus.FIXED then VarStatus.ON_LOWER else st

/-- The per-column primal value chosen by `_storeRealSolutionAsRational`:
the rational bound for a nonbasic status, `0` for `ZERO`, and the
floating-point primal value (exactly converted) otherwise. -/
def storePrimalValue (st : VarStatus) (lo up primalReal : ℚ) : ℚ :=
  match st with
  | VarStatus.ON_LOWER => lo
  | VarStatus.ON_UPPER => up
  | VarStatus.FIXED => lo
  | VarStatus.ZERO => 0
  | _ => primalReal

/-- The column loop of `_storeRealSolutionAsRational`, producing the
rational primal vector from statuses, rational bounds and the fp primal. -/
def storePrimalVec : List VarStatus → List ℚ → List ℚ → List ℚ → List ℚ
  | st :: sts, lo :: los, up :: ups, pr :: prs =>
      storePrimalValue st lo up pr :: storePrimalVec sts los ups prs
  | _, _, _, _ => []

/-- `SoPlexBase<R>::_storeRealSolutionAsRational` (solverational.hpp:393-456),
restricted to the data the claim speaks about: the rewritten column and row
statuses, the rational primal vector, the rational dual vector (exact copy
of the fp dual) and `dualSize`.  The slack and reduced-cost computations
(`computePrimalActivity`, `getObj`, `subDualActivity`) are linear algebra on
the LP and are not part of the claim. -/
def storeRealSolutionAsRational (statusCols : List VarStatus)
    (lower upper primalReal : List ℚ) (statusRows : List VarStatus)
    (dualReal : List ℚ) :
    List VarStatus × List ℚ × List VarStatus × List ℚ × ℕ :=
  (statusCols.map storeStatus,
   storePrimalVec statusCols lower upper primalReal,
   statusRows.map storeStatus,
   dualReal,
   (dualReal.filter (fun x => x ≠ 0)).length)

/-! ## `_project` (solverational.hpp:2122-2213) -/

/-- The state of the solver that `_project` reads and writes: the current
LP dimensions, the remembered pre-lift dimensions, the rational solution
pieces and flags, the basis, and the two parameters the check uses. -/
structure ProjState where
  numCols          : ℕ
  numRows          : ℕ
  beforeLiftCols   : ℕ
  beforeLiftRows   : ℕ
  redCost          : List ℚ
  dual             : List ℚ
  isDualFeasible   : Bool
  hasBasis         : Bool
  basisStatusCols  : List VarStatus
  basisStatusRows  : List VarStatus
  opttol           : ℚ
  liftMaxVal       : ℚ
deriving DecidableEq, Repr

/-- `SoPlexBase<R>::_project` (solverational.hpp:2122-2213).  Statement
order follows the source: first `removeColRange`/`removeRowRange` shrink
both LPs to the pre-lift dimensions, then the loop
`for(i = _beforeLiftCols; i < numColsRational() && sol._isDualFeasible; ++i)`
checks the lifting columns' reduced costs, then the solution vectors are
resized and the basis loops run with the same (already shrunk) upper
bounds. -/
def project (s : ProjState) : ProjState :=
  -- shrink rational and real LP to original size
  let s1 := { s with numCols := s.beforeLiftCols, numRows := s.beforeLiftRows }
  -- reduced-cost check on the lifting columns
  let checkRange := List.range' s1.beforeLiftCols (s1.numCols - s1.beforeLiftCols)
  let dualFeas : Bool := checkRange.foldl
    (fun f i => if f = true ∧ s1.opttol < |s1.liftMaxVal * s1.redCost.getD i 0| then false else f)
    s1.isDualFeasible
  -- resize solution vectors
  let redCost1 := if dualFeas then s1.redCost.take s1.beforeLiftCols else s1.redCost
  let dual1 := if dualFeas then s1.dual.take s1.beforeLiftRows else s1.dual
  -- basis adjustment loops (same empty ranges) and basis resize
  let hasBasis1 : Bool := checkRange.foldl
    (fun h i => if h = true ∧ s1.basisStatusCols.getD i VarStatus.BASIC ≠ VarStatus.BASIC then false else h)
    s1.hasBasis
  let rowRange := List.range' s1.beforeLiftRows (s1.numRows - s1.beforeLiftRows)
  let hasBasis2 : Bool := rowRange.foldl
    (fun h i => if h = true ∧ s1.basisStatusRows.getD i VarStatus.BASIC = VarStatus.BASIC then false else h)
    hasBasis1
  let cols1 := if hasBasis2 then s1.basisStatusCols.take s1.beforeLiftCols else s1.basisStatusCols
  let rows1 := if hasBasis2 then s1.basisStatusRows.take s1.beforeLiftRows else s1.basisStatusRows
  { s1 with
    redCost := redCost1
    dual := dual1
    isDualFeasible := dualFeas
    hasBasis := hasBasis2
    basisStatusCols := cols1
    basisStatusRows := rows1 }

/-! ## `_solveRealStable` (solverational.hpp:3807-4012) -/

/-- Simplex termination statuses used by `_solveRealStable`. -/
inductive SpxStatus where
  | OPTIMAL
  | INFEASIBLE
  | UNBOUNDED
  | ABORT_TIME
  | ABORT_ITER
  | SINGULAR
  | UNKNOWN
deriving DecidableEq, Repr

/-- Parameter enum values (their numeric identities are irrelevant to the
claims; only equality with the named constants matters). -/
def simplifierOffC : ℤ := 0
/-- `SIMPLIFIER_INTERNAL`. -/
def simplifierInternalC : ℤ := 3
/-- `SCALER_OFF`. -/
def scalerOffC : ℤ := 0
/-- `SCALER_BIEQUI`. -/
def scalerBiequiC : ℤ := 2
/-- `RATIOTESTER_TEXTBOOK`. -/
def ratioTesterTextbookC : ℤ := 0
/-- `RATIOTESTER_FAST`. -/
def ratioTesterFastC : ℤ := 2
/-- `PRICER_DEVEX`. -/
def pricerDevexC : ℤ := 2
/-- `PRICER_STEEP`. -/
def pricerSteepC : ℤ := 3
/-- `ALGORITHM_PRIMAL`. -/
def algorithmPrimalC : ℤ := 0
/-- `ALGORITHM_DUAL`. -/
def algorithmDualC : ℤ := 1

/-- The solver/parameter state read and written by `_solveRealStable`:
the five integer parameters it saves and restores, the solver tolerances
(`_solver.feastol()`/`opttol()`, both set through `setDelta`), the
Markowitz threshold of `_slufactor`, the solver iteration type
(ENTER/LEAVE), and the two real parameters `FPFEASTOL`, `FPOPTTOL`
(never written by the function). -/
structure SpxState where
  ratioTester : ℤ
  pricerSel   : ℤ
  simplifier  : ℤ
  scaler      : ℤ
  algorithm   : ℤ
  feastol     : ℚ
  opttol      : ℚ
  markowitz   : ℚ
  typeEnter   : Bool
  fpfeastol   : ℚ
  fpopttol    : ℚ
deriving DecidableEq, Repr

/-- `SPxSolverBase::setDelta`: sets both tolerances to the given value. -/
def SpxState.setDelta (s : SpxState) (d : ℚ) : SpxState :=
  { s with feastol := d, opttol := d }

/-- The `bool` locals of `_solveRealStable`'s ladder loop. -/
structure LadderFlags where
  fromScratch        : Bool
  solvedFromScratch  : Bool
  initialSolve       : Bool
  increasedMarkowitz : Bool
  relaxedTolerances  : Bool
  tightenedTolerances : Bool
  switchedScaler     : Bool
  switchedSimplifier : Bool
  switchedRatiotester : Bool
  switchedPricer     : Bool
  turnedoffPre       : Bool
deriving DecidableEq, Repr

/-- Initial flag values (solverational.hpp:3815-3826). -/
def LadderFlags.init : LadderFlags :=
  ⟨false, false, true, false, false, false, false, false, false, false, false⟩

/-- The saved entry values of the five integer parameters
(solverational.hpp:3828-3833), plus the saved Markowitz threshold. -/
structure SavedParams where
  markowitz   : ℚ
  ratioTester : ℤ
  pricerSel   : ℤ
  simplifier  : ℤ
  scaler      : ℤ
  algorithm   : ℤ
deriving DecidableEq, Repr

mutual

/-- The `while(true)` loop of `_solveRealStable` (solverational.hpp:3838-3999),
written as a mutual pair mirroring the C++ control flow: `ladderLoop` is
the loop head (solve, exit test, preprocessing and Markowitz blocks, which
either `continue` or fall through), `ladderRest` is the fall-through rest
of one iteration (the remaining ladder steps, each of which `continue`s
back into the loop, and the final give-up `break`).

`oracle k` abstracts the status returned by the `k`-th call of
`_solveRealForRational`; `factorOk` abstracts whether the explicit
`_solver.factorize()` after raising the Markowitz threshold throws.  The
`fromScratch`/`initialSolve` flags only influence the inner solve and
messages and are tracked untouched.  Fuel exhaustion returns the current
state (the C++ loop always terminates since every `continue` either
consumes a one-shot flag or advances the tolerance geometrically). -/
def ladderLoop (oracle : ℕ → SpxStatus) (factorOk : Bool)
    (acceptUnbounded acceptInfeasible forceNoSimplifier : Bool)
    (sv : SavedParams) :
    ℕ → ℕ → LadderFlags → SpxState → SpxStatus × SpxState
  | 0, _, _, s => (SpxStatus.UNKNOWN, s)
  | fuel + 1, k, fl, s =>
    let result := oracle k
    let solved : Bool := decide (result = SpxStatus.OPTIMAL
      ∨ (result = SpxStatus.INFEASIBLE ∧ acceptInfeasible = true)
      ∨ (result = SpxStatus.UNBOUNDED ∧ acceptUnbounded = true))
    if solved = true ∨ result = SpxStatus.ABORT_TIME ∨ result = SpxStatus.ABORT_ITER then
      (result, s)
    else
      let fl := { fl with initialSolve := false }
      if fl.turnedoffPre = false
          ∧ (s.simplifier ≠ simplifierOffC ∨ s.scaler ≠ scalerOffC) then
        ladderLoop oracle factorOk acceptUnbounded acceptInfeasible forceNoSimplifier sv
          fuel (k + 1)
          { fl with turnedoffPre := true, fromScratch := true, solvedFromScratch := true }
          { s with scaler := scalerOffC, simplifier := simplifierOffC }
      else if fl.increasedMarkowitz = false then
        -- setMarkowitz(0.9), set the flag, try to factorize
        if factorOk = true then
          -- factorization succeeded: continue
          ladderLoop oracle factorOk acceptUnbounded acceptInfeasible forceNoSimplifier sv
            fuel (k + 1) { fl with increasedMarkowitz := true }
            { s with scaler := sv.scaler, simplifier := sv.simplifier, markowitz := 9/10 }
        else
          ladderRest oracle factorOk acceptUnbounded acceptInfeasible forceNoSimplifier sv
            fuel (k + 1) result { fl with increasedMarkowitz := true }
            { s with scaler := sv.scaler, simplifier := sv.simplifier, markowitz := 9/10 }
      else
        ladderRest oracle factorOk acceptUnbounded acceptInfeasible forceNoSimplifier sv
          fuel (k + 1) result fl
          { s with scaler := sv.scaler, simplifier := sv.simplifier }
termination_by fuel _ _ _ => 2 * fuel + 1

/-- Fall-through part of one `_solveRealStable` loop iteration
(solverational.hpp:3894-3998): from the solve-from-scratch step to the
give-up `break`. -/
def ladderRest (oracle : ℕ → SpxStatus) (factorOk : Bool)
    (acceptUnbounded acceptInfeasible forceNoSimplifier : Bool)
    (sv : SavedParams) :
    ℕ → ℕ → SpxStatus → LadderFlags → SpxState → SpxStatus × SpxState
  | fuel, k, result, fl, s =>
    if fl.solvedFromScratch = false then
      ladderLoop oracle factorOk acceptUnbounded acceptInfeasible forceNoSimplifier sv
        fuel k { fl with fromScratch := true, solvedFromScratch := true } s
    else
    let s := { s with ratioTester := sv.ratioTester, pricerSel := sv.pricerSel }
    if fl.switchedScaler = false then
      ladderLoop oracle factorOk acceptUnbounded acceptInfeasible forceNoSimplifier sv
        fuel k
        { fl with fromScratch := true, solvedFromScratch := true, switchedScaler := true }
        { s with scaler := if sv.scaler = scalerOffC then scalerBiequiC else scalerOffC }
    else
    if fl.switchedSimplifier = false ∧ forceNoSimplifier = false then
      ladderLoop oracle factorOk acceptUnbounded acceptInfeasible forceNoSimplifier sv
        fuel k
        { fl with fromScratch := true, solvedFromScratch := true, switchedSimplifier := true }
        { s with simplifier := if sv.simplifier = simplifierOffC then simplifierInternalC
                               else simplifierOffC }
    else
    let s := { s with simplifier := simplifierOffC }
    if fl.relaxedTolerances = false then
      let s := { s with algorithm := algorithmPrimalC }
      let d := if (1 : ℚ)/1000 < s.feastol * 1000 then (1 : ℚ)/1000 else s.feastol * 1000
      let s := s.setDelta d
      ladderLoop oracle factorOk acceptUnbounded acceptInfeasible forceNoSimplifier sv
        fuel k
        { fl with relaxedTolerances := decide ((1 : ℚ)/1000 ≤ s.feastol),
                  solvedFromScratch := false } s
    else
    if fl.tightenedTolerances = false ∧ result ≠ SpxStatus.INFEASIBLE then
      let s := { s with algorithm := algorithmDualC }
      let d := if s.feastol * (1/1000) < (1 : ℚ)/1000000000 then (1 : ℚ)/1000000000
               else s.feastol * (1/1000)
      let s := s.setDelta d
      ladderLoop oracle factorOk acceptUnbounded acceptInfeasible forceNoSimplifier sv
        fuel k
        { fl with tightenedTolerances := decide (s.feastol ≤ (1 : ℚ)/1000000000),
                  solvedFromScratch := false } s
    else
    let s := { s with algorithm := sv.algorithm }
    if fl.switchedRatiotester = false then
      ladderLoop oracle factorOk acceptUnbounded acceptInfeasible forceNoSimplifier sv
        fuel k { fl with switchedRatiotester := true, solvedFromScratch := false }
        { s with typeEnter := !s.typeEnter,
                 ratioTester := if s.ratioTester ≠ ratioTesterTextbookC
                                then ratioTesterTextbookC else ratioTesterFastC }
    else
    if fl.switchedPricer = false then
      ladderLoop oracle factorOk acceptUnbounded acceptInfeasible forceNoSimplifier sv
        fuel k { fl with switchedPricer := true, solvedFromScratch := false }
        { s with typeEnter := !s.typeEnter,
                 pricerSel := if s.pricerSel ≠ pricerDevexC
                              then pricerDevexC else pricerSteepC }
    else
      (result, s)
termination_by fuel _ _ _ _ => 2 * fuel + 2

end

/-- `SoPlexBase<R>::_solveRealStable` (solverational.hpp:3807-4012): save
the five integer parameters and the Markowitz threshold, optionally force
the simplifier off, run the recovery ladder, and on every exit path restore
the parameters, the Markowitz threshold, and the solver tolerances (the
latter from the real parameters `FPFEASTOL` and `FPOPTTOL`,
solverational.hpp:4001-4009). -/
def solveRealStable (oracle : ℕ → SpxStatus) (factorOk : Bool)
    (acceptUnbounded acceptInfeasible forceNoSimplifier : Bool)
    (fuel : ℕ) (s0 : SpxState) : SpxStatus × SpxState :=
  let sv : SavedParams :=
    ⟨s0.markowitz, s0.ratioTester, s0.pricerSel, s0.simplifier, s0.scaler, s0.algorithm⟩
  let sStart := if forceNoSimplifier then { s0 with simplifier := simplifierOffC } else s0
  let r := ladderLoop oracle factorOk acceptUnbounded acceptInfeasible forceNoSimplifier sv
    fuel 0 LadderFlags.init sStart
  (r.1,
   { r.2 with
     feastol := r.2.fpfeastol
     opttol := r.2.fpopttol
     markowitz := sv.markowitz
     ratioTester := sv.ratioTester
     pricerSel := sv.pricerSel
     simplifier := sv.simplifier
     scaler := sv.scaler
     algorithm := sv.algorithm })

/-! ## `_transformUnbounded` / `_untransformUnbounded`
(solverational.hpp:2512-2632 and 2638-2766)

The LP is modelled over exact rationals (the template instantiates `R` as
`Rational` as well; for `R = double` the real LP undergoes the same
operations with each written value converted by `R(·)`).  A bound or side
is `none` when it is infinite; the code's `_lowerFinite(_colTypes[c])`
tests are the `Option.isSome` tests of this model, matching the asserted
agreement between range types and bound finiteness. -/

/-- The rational LP data touched by the unboundedness transform:
the internal (maximization) objective, column bounds, row sides, and the
sparse coefficient rows. -/
structure RatLP where
  maxObj : List ℚ
  lower  : List (Option ℚ)
  upper  : List (Option ℚ)
  lhs    : List (Option ℚ)
  rhs    : List (Option ℚ)
  rows   : List (List (ℕ × ℚ))
deriving DecidableEq, Repr

/-- The stored bounds and sides `_unboundedLower`, `_unboundedUpper`,
`_unboundedLhs`, `_unboundedRhs`: dense vectors written only at the finite
positions (other entries are whatever `reDim` left there; the model uses
`0`, which the restore loops never read). -/
structure UnboundedStore where
  ulower : List ℚ
  uupper : List ℚ
  ulhs   : List ℚ
  urhs   : List ℚ
deriving DecidableEq, Repr

/-- `DSVectorRational obj = _rationalLP->maxObj()`: the sparse vector of
nonzero objective entries, in position order. -/
def toSparseVec (l : List ℚ) : List (ℕ × ℚ) :=
  l.enum.filter (fun p => p.2 ≠ 0)

/-- `SoPlexBase<R>::_transformUnbounded` (solverational.hpp:2512-2632):
store the finite bounds and sides, zero them, move the objective into an
appended equality row with an appended auxiliary column `τ ≤ 1` whose
objective is `1`, and zero the objective of the original columns. -/
def transformUnbounded (lp : RatLP) : RatLP × UnboundedStore :=
  let store : UnboundedStore :=
    ⟨lp.lower.map (fun b => b.getD 0), lp.upper.map (fun b => b.getD 0),
     lp.lhs.map (fun b => b.getD 0), lp.rhs.map (fun b => b.getD 0)⟩
  let n := lp.maxObj.length
  let objRow := toSparseVec lp.maxObj ++ [(n, -1)]
  ({ maxObj := lp.maxObj.map (fun _ => 0) ++ [1],
     lower  := lp.lower.map (fun b => b.map (fun _ => 0)) ++ [none],
     upper  := lp.upper.map (fun b => b.map (fun _ => 0)) ++ [some 1],
     lhs    := lp.lhs.map (fun b => b.map (fun _ => 0)) ++ [some 0],
     rhs    := lp.rhs.map (fun b => b.map (fun _ => 0)) ++ [some 0],
     rows   := lp.rows ++ [objRow] },
   store)

/-- The objective-recovery loop of `_untransformUnbounded`
(solverational.hpp:2700-2706): `changeMaxObj(index(i), value(i))` for
`i = size-1 .. 0`, i.e. the first sparse entry is written last. -/
def applyObjEntries (es : List (ℕ × ℚ)) (obj : List ℚ) : List ℚ :=
  es.foldr (fun e acc => acc.set e.1 e.2) obj

/-- The bound/side restore loops of `_untransformUnbounded`
(solverational.hpp:2718-2756): write the stored value back at every finite
position. -/
def restoreFinite (cur : List (Option ℚ)) (stored : List ℚ) : List (Option ℚ) :=
  List.zipWith (fun b s => b.map (fun _ => s)) cur stored

/-- `SoPlexBase<R>::_untransformUnbounded` (solverational.hpp:2638-2766),
restricted to the LP (the solution/basis adjustment in its first half does
not touch the LP): recover the objective from the auxiliary row, remove the
auxiliary row and column, and restore the stored finite bounds and sides. -/
def untransformUnbounded (lp : RatLP) (store : UnboundedStore) : RatLP :=
  let n := lp.maxObj.length - 1      -- numOrigCols
  let m := lp.rows.length - 1        -- numOrigRows
  let objRow := lp.rows.getD m []
  let obj1 := applyObjEntries objRow lp.maxObj
  { maxObj := obj1.take n,
    lower  := restoreFinite (lp.lower.take n) store.ulower,
    upper  := restoreFinite (lp.upper.take n) store.uupper,
    lhs    := restoreFinite (lp.lhs.take m) store.ulhs,
    rhs    := restoreFinite (lp.rhs.take m) store.urhs,
    rows   := (lp.rows.take m).map (fun r => r.filter (fun e => e.1 ≠ n)) }

/-- Dimension and index-range well-formedness of an LP. -/
def RatLP.WF (lp : RatLP) : Prop :=
  lp.lower.length = lp.maxObj.length ∧
  lp.upper.length = lp.maxObj.length ∧
  lp.lhs.length = lp.rows.length ∧
  lp.rhs.length = lp.rows.length ∧
  ∀ r ∈ lp.rows, ∀ e ∈ r, e.1 < lp.maxObj.length

instance (lp : RatLP) : Decidable lp.WF := by
  unfold RatLP.WF; infer_instance

/-! ## SSVector (src/ssvector.cpp, src/ssvector.h)

A semi-sparse vector: a dense value list plus an index list of nonzeros,
valid when `setupStatus` holds.  An `SVector` argument is modelled as a
list of (index, value) pairs. -/

/-- The sentinel `1e-100` written into cancelled positions by
`SSVector::multAdd(Real, const SVector&)` before the clean-up pass. -/
def ssmark : ℚ := 1 / 10 ^ 100

/-- The data of an `SSVector`. -/
structure SSVec where
  val         : List ℚ
  idx         : List ℕ
  setupStatus : Bool
  eps         : ℚ
deriving DecidableEq, Repr

/-- A freshly constructed `SSVector(dim, eps)`: zero dense values, empty
index list, set up. -/
def SSVec.fresh (d : ℕ) (eps : ℚ) : SSVec :=
  ⟨List.replicate d 0, [], true, eps⟩

/-- `SSVector::setValue` (ssvector.cpp:80-99): when set up, a new index is
added only for `x > eps || x < -eps`, and an existing index is removed only
for `x == 0`; the dense value is always written. -/
def SSVec.setValue (v : SSVec) (i : ℕ) (x : ℚ) : SSVec :=
  if v.setupStatus then
    if i ∈ v.idx then
      if x = 0 then { v with val := v.val.set i x, idx := v.idx.erase i }
      else { v with val := v.val.set i x }
    else
      if v.eps < x ∨ x < -v.eps then { v with val := v.val.set i x, idx := v.idx ++ [i] }
      else { v with val := v.val.set i x }
  else { v with val := v.val.set i x }

/-- `SSVector::setup` (ssvector.cpp:101-197): when not set up, scan the
dense values in position order, skipping exact zeros; a value above
epsilon in magnitude is recorded in the index list, any other nonzero
value is rounded to `0`. -/
def SSVec.setup (v : SSVec) : SSVec :=
  if v.setupStatus then v
  else
    { v with
      val := v.val.map (fun x => if v.eps < |x| then x else 0),
      idx := (List.range v.val.length).filter
        (fun i => decide (v.val.getD i 0 ≠ 0 ∧ v.eps < |v.val.getD i 0|)),
      setupStatus := true }

/-- The re-setup idiom `setupStatus = false; setup();` used by the
`+=`/`-=` operators and by `multAdd(Real, const Vector&)`. -/
def SSVec.resetup (v : SSVec) : SSVec :=
  SSVec.setup { v with setupStatus := false }

/-- `SSVector::clear` (ssvector.cpp:63-78): zero the indexed positions when
set up (the full dense array otherwise), empty the index list, set up. -/
def SSVec.clear (v : SSVec) : SSVec :=
  if v.setupStatus then
    { v with val := v.idx.foldl (fun a j => a.set j 0) v.val, idx := [], setupStatus := true }
  else
    { v with val := List.replicate v.val.length 0, idx := [], setupStatus := true }

/-- One entry of the first loop of `SSVector::multAdd(Real, const SVector&)`
(ssvector.cpp:450-473).  State: dense values, index list, the `adjust`
flag. -/
def multSVstep (a eps : ℚ) (st : List ℚ × List ℕ × Bool) (e : ℕ × ℚ) :
    List ℚ × List ℕ × Bool :=
  let j := e.1
  if st.1.getD j 0 ≠ 0 then
    let x := st.1.getD j 0 + a * e.2
    if eps < x ∨ x < -eps then (st.1.set j x, st.2.1, st.2.2)
    else (st.1.set j ssmark, st.2.1, true)
  else
    let x := a * e.2
    if eps < x ∨ x < -eps then (st.1.set j x, st.2.1 ++ [j], st.2.2)
    else st

/-- One entry of the clean-up pass of `SSVector::multAdd(Real, const
SVector&)` (ssvector.cpp:475-489): keep an index whose value is above
epsilon, zero the value and drop the index otherwise. -/
def adjStep (eps : ℚ) (st : List ℚ × List ℕ) (j : ℕ) : List ℚ × List ℕ :=
  let x := st.1.getD j 0
  if eps < x ∨ x < -eps then (st.1, st.2 ++ [j]) else (st.1.set j 0, st.2)

/-- `SSVector::multAdd(Real, const SVector&)` (ssvector.cpp:438-496); the
`SubSVector` overload (ssvector.cpp:498-556) is the same code.  The sparse
entries are processed from the last to the first. -/
def SSVec.multAddSV (v : SSVec) (a : ℚ) (sv : List (ℕ × ℚ)) : SSVec :=
  if v.setupStatus then
    let p := sv.reverse.foldl (multSVstep a v.eps) (v.val, v.idx, false)
    if p.2.2 then
      let q := p.2.1.foldl (adjStep v.eps) (p.1, [])
      { v with val := q.1, idx := q.2 }
    else { v with val := p.1, idx := p.2.1 }
  else
    { v with val := sv.foldl (fun u e => u.set e.1 (u.getD e.1 0 + a * e.2)) v.val }

/-- The setup-setup loop of `SSVector::multAdd(Real, const SSVector&)`
(ssvector.cpp:354-387), processing the argument's sparse entries from the
last to the first.  On cancellation the value is zeroed, the remaining
entries are added densely, and the setup flag is dropped (`unSetup`);
otherwise new above-epsilon entries update the index list incrementally. -/
def multSSVloop (a eps : ℚ) : List (ℕ × ℚ) → List ℚ → List ℕ → List ℚ × List ℕ × Bool
  | [], val, idx => (val, idx, true)
  | e :: rest, val, idx =>
    let j := e.1
    if val.getD j 0 ≠ 0 then
      let x := val.getD j 0 + a * e.2
      if eps < x ∨ x < -eps then multSSVloop a eps rest (val.set j x) idx
      else
        (rest.foldl (fun u f => u.set f.1 (u.getD f.1 0 + a * f.2)) (val.set j 0), idx, false)
    else
      let x := a * e.2
      if eps < x ∨ x < -eps then multSSVloop a eps rest (val.set j x) (idx ++ [j])
      else multSSVloop a eps rest val idx

/-- `SSVector::multAdd(Real, const SSVector&)` (ssvector.cpp:350-436).
With a set-up argument: incremental sparse update when `this` is set up,
dense `Vector::multAdd` otherwise.  With a non-set-up argument
(ssvector.cpp:391-432) the code scans the argument's dense values,
ASSIGNS (not adds) each above-epsilon product into `this` and rebuilds
the index list from exactly those positions, then forces setup. -/
def SSVec.multAddSSV (v : SSVec) (a : ℚ) (w : SSVec) : SSVec :=
  if w.setupStatus then
    if v.setupStatus then
      let entries := (w.idx.map (fun j => (j, w.val.getD j 0))).reverse
      let r := multSSVloop a v.eps entries v.val v.idx
      { v with val := r.1, idx := r.2.1, setupStatus := r.2.2 }
    else
      { v with val := w.idx.foldl (fun u j => u.set j (u.getD j 0 + a * w.val.getD j 0)) v.val }
  else
    { v with
      val := (List.range w.val.length).foldl
        (fun u i =>
          if w.val.getD i 0 ≠ 0 ∧ (v.eps < a * w.val.getD i 0 ∨ a * w.val.getD i 0 < -v.eps)
          then u.set i (a * w.val.getD i 0) else u) v.val,
      idx := (List.range w.val.length).filter
        (fun i => decide (w.val.getD i 0 ≠ 0
          ∧ (v.eps < a * w.val.getD i 0 ∨ a * w.val.getD i 0 < -v.eps))),
      setupStatus := true }

/-- `SSVector::multAdd(Real, const Vector&)` (ssvector.cpp:558-567): dense
axpy, then re-setup when `this` was set up. -/
def SSVec.multAddV (v : SSVec) (a : ℚ) (w : List ℚ) : SSVec :=
  let v1 := { v with val := v.val.zipWith (fun x y => x + a * y) w }
  if v.setupStatus then v1.resetup else v1

/-- `SSVector::operator+=(const SVector&)` (ssvector.cpp:210-219): dense
add of the sparse entries, then re-setup when set up.  The `Vector`,
`SubSVector` and `SSVector` overloads follow the same pattern. -/
def SSVec.plusSV (v : SSVec) (sv : List (ℕ × ℚ)) : SSVec :=
  let v1 := { v with val := sv.foldl (fun u e => u.set e.1 (u.getD e.1 0 + e.2)) v.val }
  if v.setupStatus then v1.resetup else v1

/-- `SSVector::operator-=(const SVector&)` (ssvector.cpp:255-264). -/
def SSVec.minusSV (v : SSVec) (sv : List (ℕ × ℚ)) : SSVec :=
  let v1 := { v with val := sv.foldl (fun u e => u.set e.1 (u.getD e.1 0 - e.2)) v.val }
  if v.setupStatus then v1.resetup else v1

/-- The invariant claimed by the specification: when set up, a position
holds an above-epsilon value exactly when it is in the index list. -/
def SSVec.Inv (v : SSVec) : Prop :=
  v.setupStatus = true → ∀ i < v.val.length, (v.eps < |v.val.getD i 0| ↔ i ∈ v.idx)

instance (v : SSVec) : Decidable v.Inv := by
  unfold SSVec.Inv; infer_instance

/-- The dense/sparse agreement the code maintains: the index list is
duplicate-free and in range, indices are exactly the nonzero positions,
and every nonzero value is above epsilon in magnitude. -/
def SStrong (val : List ℚ) (idx : List ℕ) (eps : ℚ) : Prop :=
  idx.Nodup ∧ (∀ j ∈ idx, j < val.length) ∧
  ∀ i < val.length,
    (i ∈ idx ↔ val.getD i 0 ≠ 0) ∧ (val.getD i 0 ≠ 0 → eps < |val.getD i 0|)

instance (val : List ℚ) (idx : List ℕ) (eps : ℚ) : Decidable (SStrong val idx eps) := by
  unfold SStrong; infer_instance

/-- The invariant the code actually maintains on set-up vectors (it is what
`SSVector::isConsistent` checks, strengthened by the epsilon rounding that
`setup()` performs). -/
def SSVec.SInv (v : SSVec) : Prop :=
  v.setupStatus = true → SStrong v.val v.idx v.eps

instance (v : SSVec) : Decidable v.SInv := by
  unfold SSVec.SInv; infer_instance

/-- The intermediate state of the first pass of `SSVector::multAdd(Real,
const SVector&)`: the index list still matches the nonzero positions
exactly (a cancelled position holds the `1e-100` marker and keeps its
index until the clean-up pass), and while `adjust` is unset every nonzero
value is above epsilon. -/
def P1Inv (eps : ℚ) (n : ℕ) (st : List ℚ × List ℕ × Bool) : Prop :=
  st.1.length = n ∧ st.2.1.Nodup ∧ (∀ j ∈ st.2.1, j < n) ∧
  (∀ i < n, i ∈ st.2.1 ↔ st.1.getD i 0 ≠ 0) ∧
  (st.2.2 = false → ∀ i < n, st.1.getD i 0 ≠ 0 → eps < |st.1.getD i 0|)

/-- The mutating operations named by the claim. -/
inductive SSOp where
  | setV (i : ℕ) (x : ℚ)
  | runSetup
  | runClear
  | axpySV (a : ℚ) (sv : List (ℕ × ℚ))
  | axpySSV (a : ℚ) (w : SSVec)
  | axpyV (a : ℚ) (w : List ℚ)
  | plusSV (sv : List (ℕ × ℚ))
  | minusSV (sv : List (ℕ × ℚ))
deriving DecidableEq, Repr

/-- Apply one operation. -/
def SSVec.applyOp (v : SSVec) : SSOp → SSVec
  | SSOp.setV i x => v.setValue i x
  | SSOp.runSetup => v.setup
  | SSOp.runClear => v.clear
  | SSOp.axpySV a sv => v.multAddSV a sv
  | SSOp.axpySSV a w => v.multAddSSV a w
  | SSOp.axpyV a w => v.multAddV a w
  | SSOp.plusSV sv => SSVec.plusSV v sv
  | SSOp.minusSV sv => SSVec.minusSV v sv

/-- Apply a sequence of operations. -/
def SSVec.applyOps (v : SSVec) (ops : List SSOp) : SSVec :=
  ops.foldl SSVec.applyOp v

/-- Preconditions under which an operation is covered by the amended
invariant statement: arguments in range and duplicate-free (the C++
asserts the former and `SVector`/`IdxSet` guarantee the latter); a
`setValue` argument that is zero or above epsilon; a `multAdd` with an
`SSVector` argument that is set up and in range; a dense argument of the
right dimension. -/
def ValidOp (d : ℕ) (eps : ℚ) : SSOp → Prop
  | SSOp.setV i x => i < d ∧ (x = 0 ∨ eps < |x|)
  | SSOp.runSetup => True
  | SSOp.runClear => True
  | SSOp.axpySV _ sv => (sv.map Prod.fst).Nodup ∧ ∀ e ∈ sv, e.1 < d
  | SSOp.axpySSV _ w => w.setupStatus = true ∧ w.idx.Nodup ∧ ∀ j ∈ w.idx, j < d
  | SSOp.axpyV _ w => w.length = d
  | SSOp.plusSV sv => ∀ e ∈ sv, e.1 < d
  | SSOp.minusSV sv => ∀ e ∈ sv, e.1 < d

instance (d : ℕ) (eps : ℚ) (op : SSOp) : Decidable (ValidOp d eps op) := by
  cases op <;> (unfold ValidOp; infer_instance)

/-! ## Concrete example states used by the witnesses and the claims -/

/-- A loaded factorization with `initMaxabs = 1`, `maxabs = 2`. -/
def sluExample : SLUFactor :=
  ⟨1/100, 1/100, 1/100, 2, 1, false, UpdateType.ETA, SluStatus.OK⟩

/-- A post-lift state with one lifting column (index 2) whose reduced cost
`1` is far above `opttol`, for exercising `_project`. -/
def projExample : ProjState :=
  { numCols := 3
    numRows := 1
    beforeLiftCols := 2
    beforeLiftRows := 1
    redCost := [0, 0, 1]
    dual := [0]
    isDualFeasible := true
    hasBasis := true
    basisStatusCols := [VarStatus.BASIC, VarStatus.BASIC, VarStatus.ON_LOWER]
    basisStatusRows := [VarStatus.BASIC]
    opttol := 1/10000
    liftMaxVal := 1024 }

/-- A small LP with one row, two columns, a mix of finite and infinite
bounds, and a zero objective coefficient. -/
def lpExample : RatLP :=
  { maxObj := [3, 0]
    lower := [some 1, none]
    upper := [none, some 5]
    lhs := [some 2]
    rhs := [none]
    rows := [[(0, 2), (1, -1)]] }

/-- A solver state whose tolerances agree with the `FPFEASTOL`/`FPOPTTOL`
parameters. -/
def spxExample : SpxState :=
  { ratioTester := ratioTesterFastC
    pricerSel := pricerSteepC
    simplifier := simplifierInternalC
    scaler := scalerBiequiC
    algorithm := algorithmDualC
    feastol := 1/1000000
    opttol := 1/1000000
    markowitz := 1/25
    typeEnter := true
    fpfeastol := 1/1000000
    fpopttol := 1/1000000 }

/-- A set-up semi-sparse vector of dimension 2 with `eps = 1`. -/
def ssvExample : SSVec := SSVec.fresh 2 1

/-- A set-up semi-sparse vector holding the single value `3`, `eps = 1`. -/
def ssvExample3 : SSVec := ⟨[3], [0], true, 1⟩

/-- An operation sequence on a dimension-2 vector with `eps = 1` whose
`multAdd` step cancels position 0 (the marker/adjust pass fires) while
adding a new entry at position 1. -/
def c1ops : List SSOp :=
  [SSOp.setV 0 3, SSOp.axpySV 1 [(0, -3), (1, 2)], SSOp.setV 1 2]

end Soplex

/-! # Theorems -/

namespace Soplex

/-! ## Auxiliary list lemmas -/

theorem aux_getD_set_self {α : Type} [Inhabited α] (l : List α) (k : ℕ) (x d : α)
    (h : k < l.length) : (l.set k x).getD k d = x := by
  rw [List.getD_eq_getElem _ _ (by simpa using h)]
  simp [List.getElem_set_self]

theorem aux_getD_set_ne {α : Type} [Inhabited α] (l : List α) (k j : ℕ) (x d : α)
    (h : j ≠ k) : (l.set k x).getD j d = l.getD j d := by
  rcases lt_or_ge j l.length with hj | hj
  · rw [List.getD_eq_getElem _ _ (by simpa using hj), List.getD_eq_getElem _ _ hj]
    exact List.getElem_set_of_ne (Ne.symm h) x (by simpa using hj)
  · rw [List.getD_eq_default _ _ (by simpa using hj), List.getD_eq_default _ _ hj]

theorem aux_getD_map {α β : Type} (f : α → β) (l : List α) (i : ℕ) (d1 : β) (d2 : α)
    (h : i < l.length) : (l.map f).getD i d1 = f (l.getD i d2) := by
  rw [List.getD_eq_getElem _ _ (by simpa using h), List.getD_eq_getElem _ _ h]
  simp

theorem aux_abs_cond (e y : ℚ) : (e < y ∨ y < -e) ↔ e < |y| := by
  rw [lt_abs]
  constructor
  · rintro (h | h)
    · exact Or.inl h
    · exact Or.inr (by linarith)
  · rintro (h | h)
    · exact Or.inl h
    · exact Or.inr (by linarith)

/-! ## C4: stability -/

/-- C4: `SLUFactor::stability()` returns `0` when the factorization status
is not `OK`, `1` when `maxabs < initMaxabs`, and `initMaxabs / maxabs`
otherwise; under the factorization's sign conventions (`initMaxabs ≥ 0`,
`maxabs > 0`) the exported value equals `initMaxabs / maxabs` clamped to
`[0, 1]`, and in particular always lies in `[0, 1]`. -/
theorem C4_stability_clamped (s : SLUFactor)
    (hinit : 0 ≤ s.initMaxabs) (hmax : 0 < s.maxabs) :
    (s.stat ≠ SluStatus.OK → s.stability = 0) ∧
    (s.stat = SluStatus.OK → s.maxabs < s.initMaxabs → s.stability = 1) ∧
    (s.stat = SluStatus.OK → s.initMaxabs ≤ s.maxabs →
      s.stability = s.initMaxabs / s.maxabs) ∧
    (s.stat = SluStatus.OK →
      s.stability = max 0 (min 1 (s.initMaxabs / s.maxabs))) ∧
    0 ≤ s.stability ∧ s.stability ≤ 1 := by
  have hr0 : 0 ≤ s.initMaxabs / s.maxabs := div_nonneg hinit hmax.le
  refine ⟨?_, ?_, ?_, ?_, ?_⟩
  · intro h; simp [SLUFactor.stability, h]
  · intro h hlt; simp [SLUFactor.stability, h, hlt]
  · intro h hle; simp [SLUFactor.stability, h, not_lt.mpr hle]
  · intro h
    by_cases hlt : s.maxabs < s.initMaxabs
    · have h1 : 1 ≤ s.initMaxabs / s.maxabs := (one_le_div hmax).mpr hlt.le
      simp [SLUFactor.stability, h, hlt, min_eq_left h1]
    · have h1 : s.initMaxabs / s.maxabs ≤ 1 := (div_le_one hmax).mpr (not_lt.mp hlt)
      simp [SLUFactor.stability, h, hlt, min_eq_right h1, max_eq_right hr0]
  · unfold SLUFactor.stability
    split_ifs with h1 h2
    · exact ⟨le_refl 0, zero_le_one⟩
    · exact ⟨zero_le_one, le_refl 1⟩
    · exact ⟨hr0, (div_le_one hmax).mpr (not_lt.mp h2)⟩

theorem C4_stability_witness :
    0 ≤ sluExample.initMaxabs ∧ 0 < sluExample.maxabs ∧
    (0 ≤ sluExample.stability ∧ sluExample.stability ≤ 1) :=
  ⟨by norm_num [sluExample], by norm_num [sluExample],
   (C4_stability_clamped sluExample (by norm_num [sluExample])
     (by norm_num [sluExample])).2.2.2.2⟩

/-! ## C9: `change` always resets `usetup` -/

/-- C9: on every path of `SLUFactor::change` — both update types, with or
without prepared update vectors, with or without an explicit eta argument —
the function returns with `usetup = false`; `solveRight4update` and
`solve2right4update` are the operations that set `usetup = true`; hence the
second of two consecutive `change` calls never takes a prepared-vector
(`usetup`) path. -/
theorem C9_change_resets_usetup :
    (∀ (s : SLUFactor) (e : Bool), ((s.change e).1).usetup = false) ∧
    (∀ s : SLUFactor,
      (s.solveRight4update).usetup = true ∧ (s.solve2right4update).usetup = true) ∧
    (∀ (s : SLUFactor) (e e2 : Bool),
      (((s.change e).1).change e2).2 ≠ ChangePath.forestPrepared ∧
      (((s.change e).1).change e2).2 ≠ ChangePath.etaPrepared) := by
  refine ⟨?_, ?_, ?_⟩
  · intro s e
    unfold SLUFactor.change
    split_ifs <;> rfl
  · intro s
    exact ⟨rfl, rfl⟩
  · intro s e e2
    unfold SLUFactor.change
    split_ifs <;> simp_all

/-! ## C3: refinement progress and stall termination -/

theorem aux_ite_max (a b : ℚ) : (if a < b then b else a) = max a b := by
  split_ifs with h
  · exact (max_eq_right h.le).symm
  · exact (max_eq_left (not_lt.mp h)).symm

/-- C3: with the improvement factor `16` used by `_performOptIRStable`,
`_checkRefinementProgress` computes the maximum of the four violations,
counts a failed refinement exactly when that maximum exceeds
`bestViolation / 16` — leaving the best violation at its previous value
(exactly, in rational arithmetic) — and otherwise lowers the best violation
to the new maximum; `_isRefinementOver` terminates the refinement loop
whenever the failed-refinement count exceeds `2`, in particular after three
stalls. -/
theorem C3_refinement_progress (bv sv rcv dv best : ℚ) (nf : ℕ) :
    (checkRefinementProgress bv sv rcv dv best violationImprovementFactorVal nf).1
      = max (max (max bv sv) rcv) dv ∧
    (best / 16 < max (max (max bv sv) rcv) dv →
      (checkRefinementProgress bv sv rcv dv best violationImprovementFactorVal nf).2.1 = best ∧
      (checkRefinementProgress bv sv rcv dv best violationImprovementFactorVal nf).2.2 = nf + 1) ∧
    (max (max (max bv sv) rcv) dv ≤ best / 16 →
      (checkRefinementProgress bv sv rcv dv best violationImprovementFactorVal nf).2.1
        = max (max (max bv sv) rcv) dv ∧
      (checkRefinementProgress bv sv rcv dv best violationImprovementFactorVal nf).2.2 = nf) ∧
    (∀ (ft ot : ℚ) (minRounds : ℤ) (st si : Bool) (nf2 : ℕ), 2 < nf2 →
      (isRefinementOver ft ot bv sv rcv dv minRounds st si nf2).2.2 = true) := by
  have hmax : (checkRefinementProgress bv sv rcv dv best violationImprovementFactorVal nf).1
      = max (max (max bv sv) rcv) dv := by
    unfold checkRefinementProgress
    simp only [aux_ite_max]
    split_ifs <;> rfl
  have hfac : violationImprovementFactorVal = 16 := rfl
  refine ⟨hmax, ?_, ?_, ?_⟩
  · intro h
    unfold checkRefinementProgress
    simp only [aux_ite_max, hfac]
    rw [if_pos h]
    exact ⟨by rw [div_mul_cancel₀ best (by norm_num : (16:ℚ) ≠ 0)], rfl⟩
  · intro h
    unfold checkRefinementProgress
    simp only [aux_ite_max, hfac]
    rw [if_neg (not_lt.mpr h)]
    exact ⟨rfl, rfl⟩
  · intro ft ot minRounds st si nf2 h
    unfold isRefinementOver
    have : decide (2 < nf2) = true := by simpa using h
    split_ifs <;> simp_all

theorem C3_refinement_witness :
    (checkRefinementProgress 3 1 2 0 32 violationImprovementFactorVal 0).2.1 = 32 ∧
    (checkRefinementProgress 3 1 2 0 32 violationImprovementFactorVal 0).2.2 = 1 ∧
    (isRefinementOver 0 0 3 1 2 0 0 false false 3).2.2 = true := by
  have h := C3_refinement_progress 3 1 2 0 32 0
  have hcond : (32 : ℚ) / 16 < max (max (max 3 1) 2) 0 := by norm_num
  exact ⟨(h.2.1 hcond).1, (h.2.1 hcond).2, h.2.2.2 0 0 0 false false 3 (by norm_num)⟩

/-! ## C5: Markowitz threshold management -/

theorem aux_loadLoop_post (stab : ℚ → ℚ) :
    ∀ (fuel : ℕ) (th ms : ℚ), reachesFixIn th fuel →
      (SLUFactor.loadRefactorLoop stab fuel th ms).2
          ≤ stab (SLUFactor.loadRefactorLoop stab fuel th ms).1 ∨
        betterThreshold (SLUFactor.loadRefactorLoop stab fuel th ms).1
          = (SLUFactor.loadRefactorLoop stab fuel th ms).1 := by
  intro fuel
  induction fuel with
  | zero =>
    intro th ms h
    exact Or.inr h
  | succ n ih =>
    intro th ms h
    unfold SLUFactor.loadRefactorLoop
    by_cases h1 : ms ≤ stab th
    · rw [if_pos h1]
      exact Or.inl h1
    · rw [if_neg h1]
      dsimp only
      by_cases h2 : th = betterThreshold th
      · rw [if_pos h2]
        refine Or.inr ?_
        show betterThreshold (betterThreshold th) = betterThreshold th
        rw [← h2]
        exact h2.symm
      · rw [if_neg h2]
        exact ih (betterThreshold th) (ms / 2) h

/-- C5: after `SLUFactor::clear()` the Markowitz threshold floor
`minThreshold` is `0.01` and `lastThreshold` starts there;
`betterThreshold` raises a threshold by the stated piecewise rule
(`×10` below `0.1`, halving the distance to `1` up to `0.9`, `0.99999` up
to `0.999`, fixed point beyond); and the refactoring loop of
`SLUFactor::load` stops only with `stability() ≥ minStability` or at a
`betterThreshold` fixed point — in particular the chain started at the
`0.01` floor reaches its fixed point within `7` raises, so the loop
terminates properly on any stability outcome. -/
theorem C5_markowitz_threshold :
    (∀ s : SLUFactor, (s.clear).minThreshold = 1/100 ∧ (s.clear).lastThreshold = 1/100) ∧
    (∀ th : ℚ,
      (th < 1/10 → betterThreshold th = th * 10) ∧
      (1/10 ≤ th → th < 9/10 → betterThreshold th = (th + 1) / 2) ∧
      (9/10 ≤ th → th < 999/1000 → betterThreshold th = 99999/100000) ∧
      (999/1000 ≤ th → betterThreshold th = th)) ∧
    reachesFixIn (1/100) 7 ∧
    (∀ (stab : ℚ → ℚ) (fuel : ℕ) (th ms : ℚ), reachesFixIn th fuel →
      (SLUFactor.loadRefactorLoop stab fuel th ms).2
          ≤ stab (SLUFactor.loadRefactorLoop stab fuel th ms).1 ∨
        betterThreshold (SLUFactor.loadRefactorLoop stab fuel th ms).1
          = (SLUFactor.loadRefactorLoop stab fuel th ms).1) := by
  refine ⟨?_, ?_, ?_, ?_⟩
  · intro s
    exact ⟨rfl, rfl⟩
  · intro th
    refine ⟨?_, ?_, ?_, ?_⟩
    · intro h; rw [betterThreshold, if_pos h]
    · intro h1 h2
      rw [betterThreshold, if_neg (not_lt.mpr h1), if_pos h2]
    · intro h1 h2
      rw [betterThreshold, if_neg (not_lt.mpr (by linarith : (1:ℚ)/10 ≤ th)),
        if_neg (not_lt.mpr h1), if_pos h2]
    · intro h1
      rw [betterThreshold, if_neg (not_lt.mpr (by linarith : (1:ℚ)/10 ≤ th)),
        if_neg (not_lt.mpr (by linarith : (9:ℚ)/10 ≤ th)), if_neg (not_lt.mpr h1)]
  · norm_num [reachesFixIn, betterIter, betterThreshold]
  · exact fun stab fuel th ms h => aux_loadLoop_post stab fuel th ms h

theorem C5_markowitz_witness :
    reachesFixIn (1/100) 7 ∧
    ((SLUFactor.loadRefactorLoop (fun _ => 1) 7 (1/100) (1/100)).2
        ≤ (fun _ => (1:ℚ)) (SLUFactor.loadRefactorLoop (fun _ => 1) 7 (1/100) (1/100)).1 ∨
      betterThreshold (SLUFactor.loadRefactorLoop (fun _ => 1) 7 (1/100) (1/100)).1
        = (SLUFactor.loadRefactorLoop (fun _ => 1) 7 (1/100) (1/100)).1) :=
  ⟨by norm_num [reachesFixIn, betterIter, betterThreshold],
   C5_markowitz_threshold.2.2.2 (fun _ => 1) 7 (1/100) (1/100)
     (by norm_num [reachesFixIn, betterIter, betterThreshold])⟩

/-! ## C2: scaling factors -/

theorem aux_ite_min (a b : ℚ) : (if a < b then a else b) = min a b := by
  split_ifs with h
  · exact (min_eq_left h.le).symm
  · exact (min_eq_right (not_lt.mp h)).symm

theorem aux_powRound_pow2 (x : ℚ) (hx : 0 < x) : ∃ e : ℤ, powRound x = 2 ^ e := by
  unfold powRound
  split_ifs with h1
  · exact ⟨(Nat.log 2 ⌊x⌋.toNat : ℤ), by rw [zpow_natCast]⟩
  · exact ⟨-(Nat.clog 2 ⌈x⁻¹⌉.toNat : ℤ), by rw [zpow_neg, zpow_natCast]⟩

theorem aux_powRound_le (x : ℚ) (hx : 0 < x) : powRound x ≤ x := by
  unfold powRound
  split_ifs with h1
  · have hfl : (1 : ℤ) ≤ ⌊x⌋ := Int.le_floor.mpr (by exact_mod_cast h1)
    have hne : ⌊x⌋.toNat ≠ 0 := by omega
    have hlog := Nat.pow_log_le_self 2 hne
    have hcast : ((2 ^ Nat.log 2 ⌊x⌋.toNat : ℕ) : ℚ) ≤ (⌊x⌋.toNat : ℚ) := by
      exact_mod_cast hlog
    have hfl2 : ((⌊x⌋.toNat : ℤ) : ℚ) ≤ x := by
      rw [Int.toNat_of_nonneg (by omega)]
      exact Int.floor_le x
    calc (2 : ℚ) ^ Nat.log 2 ⌊x⌋.toNat = ((2 ^ Nat.log 2 ⌊x⌋.toNat : ℕ) : ℚ) := by
          push_cast; ring
      _ ≤ (⌊x⌋.toNat : ℚ) := hcast
      _ ≤ x := by exact_mod_cast hfl2
  · have hceil : (1 : ℤ) ≤ ⌈x⁻¹⌉ := by
      have := Int.ceil_pos.mpr (by positivity : (0:ℚ) < x⁻¹)
      omega
    have hclog := Nat.le_pow_clog (by norm_num : 1 < 2) ⌈x⁻¹⌉.toNat
    have hinv2 : x⁻¹ ≤ (2 : ℚ) ^ Nat.clog 2 ⌈x⁻¹⌉.toNat := by
      calc x⁻¹ ≤ (⌈x⁻¹⌉ : ℚ) := Int.le_ceil x⁻¹
        _ = ((⌈x⁻¹⌉.toNat : ℤ) : ℚ) := by rw [Int.toNat_of_nonneg (by omega)]
        _ ≤ ((2 ^ Nat.clog 2 ⌈x⁻¹⌉.toNat : ℕ) : ℚ) := by exact_mod_cast hclog
        _ = (2 : ℚ) ^ Nat.clog 2 ⌈x⁻¹⌉.toNat := by push_cast; ring
    calc ((2 : ℚ) ^ Nat.clog 2 ⌈x⁻¹⌉.toNat)⁻¹
        ≤ (x⁻¹)⁻¹ := by
          apply inv_anti₀ (by positivity) hinv2
      _ = x := inv_inv x

/-- C2: in every refinement iteration the new primal scaling factor equals
the reciprocal of `max(boundsViolation, sideViolation, redCostViolation)`
when that maximum is positive, capped above by the previous
`primalScale · maxscaleincr` (and equal to that cap when the maximum is
nonpositive); `_applyScaledBounds` then clamps the iteration's primal
scale to at least `1`; the dual scaling factor is computed symmetrically
from `max(redCostViolation, dualViolation)` and is additionally capped so
that `dualScale ≤ primalScale` and `dualScale ≥ 1` — both caps hold
unconditionally because the dual computation receives the already clamped
`primalScale ≥ 1`.  Under `POWERSCALING` both factors pass through
`powRound`, which yields a power of two no larger than its positive
input, before the dual clamps. -/
theorem C2_scaling_factors (ps : Bool) (incr pPrev dPrev bv sv rcv dv : ℚ) :
    ((computePrimalScalingFactor ps incr pPrev bv sv rcv).1 = pPrev * incr) ∧
    (0 < max (max bv sv) rcv →
      (computePrimalScalingFactor ps incr pPrev bv sv rcv).2
        = (if ps then powRound (min (max (max bv sv) rcv)⁻¹ (pPrev * incr))
           else min (max (max bv sv) rcv)⁻¹ (pPrev * incr))) ∧
    (max (max bv sv) rcv ≤ 0 →
      (computePrimalScalingFactor ps incr pPrev bv sv rcv).2
        = (if ps then powRound (pPrev * incr) else pPrev * incr)) ∧
    ((refinementScalingFactors ps incr pPrev dPrev bv sv rcv dv).1
      = max 1 (computePrimalScalingFactor ps incr pPrev bv sv rcv).2) ∧
    ((refinementScalingFactors ps incr pPrev dPrev bv sv rcv dv).2
      = max 1 (min (refinementScalingFactors ps incr pPrev dPrev bv sv rcv dv).1
          (if ps then powRound (if 0 < max rcv dv then min (max rcv dv)⁻¹ (dPrev * incr)
                                else dPrev * incr)
           else if 0 < max rcv dv then min (max rcv dv)⁻¹ (dPrev * incr)
                else dPrev * incr))) ∧
    (1 ≤ (refinementScalingFactors ps incr pPrev dPrev bv sv rcv dv).2) ∧
    ((refinementScalingFactors ps incr pPrev dPrev bv sv rcv dv).2
      ≤ (refinementScalingFactors ps incr pPrev dPrev bv sv rcv dv).1) ∧
    (∀ x : ℚ, 0 < x → (∃ e : ℤ, powRound x = 2 ^ e) ∧ powRound x ≤ x) := by
  have hprim : ∀ hps : Bool,
      (computePrimalScalingFactor hps incr pPrev bv sv rcv).2
        = (if hps then powRound (if 0 < max (max bv sv) rcv
              then min (max (max bv sv) rcv)⁻¹ (pPrev * incr) else pPrev * incr)
           else if 0 < max (max bv sv) rcv
              then min (max (max bv sv) rcv)⁻¹ (pPrev * incr) else pPrev * incr) := by
    intro hps
    unfold computePrimalScalingFactor
    dsimp only
    rw [aux_ite_max sv bv, aux_ite_max (max sv bv) rcv, max_comm sv bv]
    by_cases hm : 0 < max (max bv sv) rcv
    · rw [if_pos hm, if_pos hm, aux_ite_min (pPrev * incr) (max (max bv sv) rcv)⁻¹,
        min_comm (pPrev * incr) (max (max bv sv) rcv)⁻¹]
    · rw [if_neg hm, if_neg hm]
  have hdual : ∀ pscale : ℚ, (computeDualScalingFactor ps incr pscale dPrev rcv dv).2
      = max 1 (min pscale
          (if ps then powRound (if 0 < max rcv dv then min (max rcv dv)⁻¹ (dPrev * incr)
                                else dPrev * incr)
           else if 0 < max rcv dv then min (max rcv dv)⁻¹ (dPrev * incr)
                else dPrev * incr)) := by
    intro pscale
    unfold computeDualScalingFactor
    dsimp only
    rw [aux_ite_max dv rcv, max_comm dv rcv]
    by_cases hm : 0 < max rcv dv
    · rw [if_pos hm, if_pos hm, aux_ite_min (dPrev * incr) (max rcv dv)⁻¹,
        min_comm (dPrev * incr) (max rcv dv)⁻¹, aux_ite_min pscale _, aux_ite_max _ 1,
        max_comm _ 1]
    · rw [if_neg hm, if_neg hm, aux_ite_min pscale _, aux_ite_max _ 1, max_comm _ 1]
  have hclamp : (refinementScalingFactors ps incr pPrev dPrev bv sv rcv dv).1
      = max 1 (computePrimalScalingFactor ps incr pPrev bv sv rcv).2 := by
    unfold refinementScalingFactors applyScaledBoundsScale
    dsimp only
    rw [aux_ite_max _ 1, max_comm _ 1]
  have hrs2 : (refinementScalingFactors ps incr pPrev dPrev bv sv rcv dv).2
      = (computeDualScalingFactor ps incr
          (refinementScalingFactors ps incr pPrev dPrev bv sv rcv dv).1 dPrev rcv dv).2 :=
    rfl
  refine ⟨rfl, ?_, ?_, hclamp, ?_, ?_, ?_, ?_⟩
  · intro hm
    rw [hprim ps, if_pos hm]
  · intro hm
    rw [hprim ps, if_neg (not_lt.mpr hm)]
  · rw [hrs2, hdual]
  · rw [hrs2, hdual]
    exact le_max_left 1 _
  · rw [hrs2, hdual]
    refine max_le ?_ (min_le_left _ _)
    rw [hclamp]
    exact le_max_left 1 _
  · intro x hx
    exact ⟨aux_powRound_pow2 x hx, aux_powRound_le x hx⟩

theorem C2_scaling_witness :
    (0 : ℚ) < max (max 2 0) 4 ∧
    (computePrimalScalingFactor false 2 1 2 0 4).2 = min (max (max 2 0) 4)⁻¹ ((1:ℚ) * 2) ∧
    (refinementScalingFactors false 2 1 1 2 0 4 0).1
      = max 1 (computePrimalScalingFactor false 2 1 2 0 4).2 ∧
    1 ≤ (refinementScalingFactors false 2 1 1 2 0 4 0).2 ∧
    (refinementScalingFactors false 2 1 1 2 0 4 0).2
      ≤ (refinementScalingFactors false 2 1 1 2 0 4 0).1 ∧
    (∃ e : ℤ, powRound 8 = 2 ^ e) ∧ powRound 8 ≤ 8 := by
  have h := C2_scaling_factors false 2 1 1 2 0 4 0
  exact ⟨by norm_num, h.2.1 (by norm_num), h.2.2.2.1, h.2.2.2.2.2.1,
    h.2.2.2.2.2.2.1, (h.2.2.2.2.2.2.2 8 (by norm_num)).1,
    (h.2.2.2.2.2.2.2 8 (by norm_num)).2⟩

/-! ## C10: `_storeRealSolutionAsRational` -/

theorem aux_storePrimal_getD :
    ∀ (sts : List VarStatus) (los ups prs : List ℚ),
      sts.length = los.length → los.length = ups.length → ups.length = prs.length →
      ∀ i < sts.length,
        (storePrimalVec sts los ups prs).getD i 0
          = storePrimalValue (sts.getD i VarStatus.BASIC)
              (los.getD i 0) (ups.getD i 0) (prs.getD i 0) := by
  intro sts
  induction sts with
  | nil => intro los ups prs _ _ _ i hi; simp at hi
  | cons st sts ih =>
    intro los ups prs h1 h2 h3 i hi
    cases los with
    | nil => simp at h1
    | cons lo los =>
      cases ups with
      | nil => simp at h2
      | cons up ups =>
        cases prs with
        | nil => simp at h3
        | cons pr prs =>
          cases i with
          | zero => rfl
          | succ n =>
            simp only [storePrimalVec, List.getD_cons_succ]
            exact ih los ups prs (by simpa using h1) (by simpa using h2)
              (by simpa using h3) n (by simpa using hi)

/-- C10: after `_storeRealSolutionAsRational`, no column or row basis
status is `FIXED` (every `FIXED` is rewritten to `ON_LOWER`), and every
nonbasic column's rational primal value equals its bound exactly —
`lowerRational` for `ON_LOWER` and for a formerly `FIXED` status,
`upperRational` for `ON_UPPER`, `0` for `ZERO` — while only the remaining
statuses (`BASIC`, `UNDEFINED`) take the floating-point primal value. -/
theorem C10_store_solution (statusCols : List VarStatus)
    (lower upper primalReal : List ℚ) (statusRows : List VarStatus)
    (dualReal : List ℚ)
    (h1 : statusCols.length = lower.length) (h2 : lower.length = upper.length)
    (h3 : upper.length = primalReal.length) :
    (∀ st ∈ (storeRealSolutionAsRational statusCols lower upper primalReal
        statusRows dualReal).1, st ≠ VarStatus.FIXED) ∧
    (∀ st ∈ (storeRealSolutionAsRational statusCols lower upper primalReal
        statusRows dualReal).2.2.1, st ≠ VarStatus.FIXED) ∧
    (∀ i < statusCols.length,
      ((statusCols.getD i VarStatus.BASIC = VarStatus.ON_LOWER ∨
        statusCols.getD i VarStatus.BASIC = VarStatus.FIXED) →
        (storeRealSolutionAsRational statusCols lower upper primalReal
          statusRows dualReal).2.1.getD i 0 = lower.getD i 0) ∧
      (statusCols.getD i VarStatus.BASIC = VarStatus.ON_UPPER →
        (storeRealSolutionAsRational statusCols lower upper primalReal
          statusRows dualReal).2.1.getD i 0 = upper.getD i 0) ∧
      (statusCols.getD i VarStatus.BASIC = VarStatus.ZERO →
        (storeRealSolutionAsRational statusCols lower upper primalReal
          statusRows dualReal).2.1.getD i 0 = 0) ∧
      ((statusCols.getD i VarStatus.BASIC = VarStatus.BASIC ∨
        statusCols.getD i VarStatus.BASIC = VarStatus.UNDEFINED) →
        (storeRealSolutionAsRational statusCols lower upper primalReal
          statusRows dualReal).2.1.getD i 0 = primalReal.getD i 0) ∧
      (statusCols.getD i VarStatus.BASIC = VarStatus.FIXED →
        (storeRealSolutionAsRational statusCols lower upper primalReal
          statusRows dualReal).1.getD i VarStatus.BASIC = VarStatus.ON_LOWER)) := by
  have hval := aux_storePrimal_getD statusCols lower upper primalReal h1 h2 h3
  refine ⟨?_, ?_, ?_⟩
  · intro st hst
    rcases List.mem_map.mp hst with ⟨st0, _, rfl⟩
    unfold storeStatus
    split_ifs with h
    · simp
    · exact h
  · intro st hst
    rcases List.mem_map.mp hst with ⟨st0, _, rfl⟩
    unfold storeStatus
    split_ifs with h
    · simp
    · exact h
  · intro i hi
    have hv := hval i hi
    refine ⟨?_, ?_, ?_, ?_, ?_⟩
    · rintro (h | h) <;>
        (show (storePrimalVec statusCols lower upper primalReal).getD i 0 = _;
         rw [hv, h]; rfl)
    · intro h
      show (storePrimalVec statusCols lower upper primalReal).getD i 0 = _
      rw [hv, h]; rfl
    · intro h
      show (storePrimalVec statusCols lower upper primalReal).getD i 0 = _
      rw [hv, h]; rfl
    · rintro (h | h) <;>
        (show (storePrimalVec statusCols lower upper primalReal).getD i 0 = _;
         rw [hv, h]; rfl)
    · intro h
      show (statusCols.map storeStatus).getD i VarStatus.BASIC = _
      rw [aux_getD_map storeStatus statusCols i VarStatus.BASIC VarStatus.BASIC hi, h]
      rfl

theorem C10_store_witness :
    (∀ st ∈ (storeRealSolutionAsRational
        [VarStatus.FIXED, VarStatus.ON_UPPER, VarStatus.ZERO]
        [10, 20, 30] [40, 50, 60] [70, 80, 90] [VarStatus.FIXED] [0, 5]).1,
      st ≠ VarStatus.FIXED) ∧
    (storeRealSolutionAsRational
        [VarStatus.FIXED, VarStatus.ON_UPPER, VarStatus.ZERO]
        [10, 20, 30] [40, 50, 60] [70, 80, 90] [VarStatus.FIXED] [0, 5]).2.1.getD 0 0 = 10 ∧
    (storeRealSolutionAsRational
        [VarStatus.FIXED, VarStatus.ON_UPPER, VarStatus.ZERO]
        [10, 20, 30] [40, 50, 60] [70, 80, 90] [VarStatus.FIXED] [0, 5]).1.getD 0
      VarStatus.BASIC = VarStatus.ON_LOWER := by
  have h := C10_store_solution
    [VarStatus.FIXED, VarStatus.ON_UPPER, VarStatus.ZERO]
    [10, 20, 30] [40, 50, 60] [70, 80, 90] [VarStatus.FIXED] [0, 5]
    rfl rfl rfl
  exact ⟨h.1, (h.2.2 0 (by norm_num)).1 (Or.inr rfl), (h.2.2 0 (by norm_num)).2.2.2.2 rfl⟩

/-! ## C7: the `_project` reduced-cost check is dead code -/

/-- C7: `_project` does shrink both LPs back to their pre-lift dimensions,
but it does so BEFORE the reduced-cost check loop, whose upper bound is the
already shrunk `numColsRational()`; the loop range is therefore empty.  At
this concrete input the lifting column (index 2) is nonbasic and its
reduced cost `1` satisfies `|LIFTMAXVAL · redCost| > opttol`, yet after
`_project` the solution is still declared dual feasible and the basis is
kept — contradicting the claim that every failing lifting column marks the
dual solution infeasible. -/
theorem C7_project_check_dead :
    (project projExample).numCols = 2 ∧
    (project projExample).numRows = 1 ∧
    projExample.opttol < |projExample.liftMaxVal * projExample.redCost.getD 2 0| ∧
    projExample.basisStatusCols.getD 2 VarStatus.BASIC ≠ VarStatus.BASIC ∧
    (project projExample).isDualFeasible = true ∧
    (project projExample).hasBasis = true := by
  refine ⟨?_, ?_, ?_, by decide, ?_, ?_⟩ <;>
    norm_num [project, projExample, List.range']

/-! ## C8: `_solveRealStable` restores all settings -/

set_option maxHeartbeats 2000000 in
theorem aux_ladder_fpf (oracle : ℕ → SpxStatus) (factorOk aU aI fNS : Bool)
    (sv : SavedParams) :
    ∀ fuel : ℕ,
      (∀ (k : ℕ) (fl : LadderFlags) (s : SpxState),
        (ladderLoop oracle factorOk aU aI fNS sv fuel k fl s).2.fpfeastol = s.fpfeastol) ∧
      (∀ (k : ℕ) (result : SpxStatus) (fl : LadderFlags) (s : SpxState),
        (ladderRest oracle factorOk aU aI fNS sv fuel k result fl s).2.fpfeastol
          = s.fpfeastol) := by
  intro fuel
  induction fuel with
  | zero =>
    have hloop : ∀ (k : ℕ) (fl : LadderFlags) (s : SpxState),
        (ladderLoop oracle factorOk aU aI fNS sv 0 k fl s).2.fpfeastol = s.fpfeastol := by
      intro k fl s
      rw [ladderLoop]
    refine ⟨hloop, ?_⟩
    intro k r fl s
    rw [ladderRest]
    dsimp only
    split_ifs <;> first | rfl | exact hloop _ _ _
  | succ n ih =>
    have hloop : ∀ (k : ℕ) (fl : LadderFlags) (s : SpxState),
        (ladderLoop oracle factorOk aU aI fNS sv (n + 1) k fl s).2.fpfeastol
          = s.fpfeastol := by
      intro k fl s
      rw [ladderLoop]
      dsimp only
      split_ifs <;> first | rfl | exact ih.1 _ _ _ | exact ih.2 _ _ _ _
    refine ⟨hloop, ?_⟩
    intro k r fl s
    rw [ladderRest]
    dsimp only
    split_ifs <;> first | rfl | exact hloop _ _ _

set_option maxHeartbeats 2000000 in
theorem aux_ladder_fpo (oracle : ℕ → SpxStatus) (factorOk aU aI fNS : Bool)
    (sv : SavedParams) :
    ∀ fuel : ℕ,
      (∀ (k : ℕ) (fl : LadderFlags) (s : SpxState),
        (ladderLoop oracle factorOk aU aI fNS sv fuel k fl s).2.fpopttol = s.fpopttol) ∧
      (∀ (k : ℕ) (result : SpxStatus) (fl : LadderFlags) (s : SpxState),
        (ladderRest oracle factorOk aU aI fNS sv fuel k result fl s).2.fpopttol
          = s.fpopttol) := by
  intro fuel
  induction fuel with
  | zero =>
    have hloop : ∀ (k : ℕ) (fl : LadderFlags) (s : SpxState),
        (ladderLoop oracle factorOk aU aI fNS sv 0 k fl s).2.fpopttol = s.fpopttol := by
      intro k fl s
      rw [ladderLoop]
    refine ⟨hloop, ?_⟩
    intro k r fl s
    rw [ladderRest]
    dsimp only
    split_ifs <;> first | rfl | exact hloop _ _ _
  | succ n ih =>
    have hloop : ∀ (k : ℕ) (fl : LadderFlags) (s : SpxState),
        (ladderLoop oracle factorOk aU aI fNS sv (n + 1) k fl s).2.fpopttol
          = s.fpopttol := by
      intro k fl s
      rw [ladderLoop]
      dsimp only
      split_ifs <;> first | rfl | exact ih.1 _ _ _ | exact ih.2 _ _ _ _
    refine ⟨hloop, ?_⟩
    intro k r fl s
    rw [ladderRest]
    dsimp only
    split_ifs <;> first | rfl | exact hloop _ _ _

/-- C8: `_solveRealStable` saves the ratio tester, pricer, simplifier,
scaler and algorithm parameters and the Markowitz threshold on entry, and
on return — whatever path the recovery ladder takes, including give-up
after exhausting every step and early exit on `ABORT_TIME`/`ABORT_ITER` —
restores all of them; the floating-point tolerances are restored from the
`FPFEASTOL`/`FPOPTTOL` parameters (never written by the function), which
at every call site equal the solver tolerances at entry, so under that
agreement the tolerances too return to their entry values. -/
theorem C8_solveRealStable_restores (oracle : ℕ → SpxStatus)
    (factorOk aU aI fNS : Bool) (fuel : ℕ) (s0 : SpxState)
    (hf : s0.feastol = s0.fpfeastol) (ho : s0.opttol = s0.fpopttol) :
    (solveRealStable oracle factorOk aU aI fNS fuel s0).2.ratioTester = s0.ratioTester ∧
    (solveRealStable oracle factorOk aU aI fNS fuel s0).2.pricerSel = s0.pricerSel ∧
    (solveRealStable oracle factorOk aU aI fNS fuel s0).2.simplifier = s0.simplifier ∧
    (solveRealStable oracle factorOk aU aI fNS fuel s0).2.scaler = s0.scaler ∧
    (solveRealStable oracle factorOk aU aI fNS fuel s0).2.algorithm = s0.algorithm ∧
    (solveRealStable oracle factorOk aU aI fNS fuel s0).2.markowitz = s0.markowitz ∧
    (solveRealStable oracle factorOk aU aI fNS fuel s0).2.feastol = s0.feastol ∧
    (solveRealStable oracle factorOk aU aI fNS fuel s0).2.opttol = s0.opttol := by
  have h1 := (aux_ladder_fpf oracle factorOk aU aI fNS
    ⟨s0.markowitz, s0.ratioTester, s0.pricerSel, s0.simplifier, s0.scaler, s0.algorithm⟩
    fuel).1 0 LadderFlags.init
    (if fNS then { s0 with simplifier := simplifierOffC } else s0)
  have h2 := (aux_ladder_fpo oracle factorOk aU aI fNS
    ⟨s0.markowitz, s0.ratioTester, s0.pricerSel, s0.simplifier, s0.scaler, s0.algorithm⟩
    fuel).1 0 LadderFlags.init
    (if fNS then { s0 with simplifier := simplifierOffC } else s0)
  have hstartf : (if fNS then { s0 with simplifier := simplifierOffC } else s0).fpfeastol
      = s0.fpfeastol := by cases fNS <;> rfl
  have hstarto : (if fNS then { s0 with simplifier := simplifierOffC } else s0).fpopttol
      = s0.fpopttol := by cases fNS <;> rfl
  refine ⟨rfl, rfl, rfl, rfl, rfl, rfl, ?_, ?_⟩
  · exact (h1.trans hstartf).trans hf.symm
  · exact (h2.trans hstarto).trans ho.symm

theorem C8_solveRealStable_witness :
    spxExample.feastol = spxExample.fpfeastol ∧
    spxExample.opttol = spxExample.fpopttol ∧
    ((solveRealStable (fun _ => SpxStatus.SINGULAR) false false false false 20
        spxExample).2.scaler = spxExample.scaler ∧
     (solveRealStable (fun _ => SpxStatus.SINGULAR) false false false false 20
        spxExample).2.markowitz = spxExample.markowitz ∧
     (solveRealStable (fun _ => SpxStatus.SINGULAR) false false false false 20
        spxExample).2.feastol = spxExample.feastol) := by
  have h := C8_solveRealStable_restores (fun _ => SpxStatus.SINGULAR)
    false false false false 20 spxExample rfl rfl
  exact ⟨rfl, rfl, h.2.2.2.1, h.2.2.2.2.2.1, h.2.2.2.2.2.2.1⟩

/-! ## C6: unboundedness transform round trip -/

theorem aux_applyObj_cons (e : ℕ × ℚ) (es : List (ℕ × ℚ)) (init : List ℚ) :
    applyObjEntries (e :: es) init = (applyObjEntries es init).set e.1 e.2 := rfl

theorem aux_applyObj_append (es fs : List (ℕ × ℚ)) (init : List ℚ) :
    applyObjEntries (es ++ fs) init = applyObjEntries es (applyObjEntries fs init) := by
  unfold applyObjEntries
  exact List.foldr_append _ _ _ _

theorem aux_applyObj_length (es : List (ℕ × ℚ)) (init : List ℚ) :
    (applyObjEntries es init).length = init.length := by
  induction es with
  | nil => rfl
  | cons e es ih => rw [aux_applyObj_cons, List.length_set, ih]

theorem aux_applyObj_enum (L : List ℚ) :
    ∀ (k : ℕ) (init : List ℚ), k + L.length ≤ init.length →
      ∀ j : ℕ,
        (applyObjEntries ((L.enumFrom k).filter (fun p => p.2 ≠ 0)) init).getD j 0
          = if k ≤ j ∧ j < k + L.length ∧ L.getD (j - k) 0 ≠ 0 then L.getD (j - k) 0
            else init.getD j 0 := by
  induction L with
  | nil =>
    intro k init hlen j
    rw [if_neg (by rintro ⟨a, b, c⟩; simp at b; omega)]
    rfl
  | cons x xs ih =>
    intro k init hlen j
    have hlc : (x :: xs).length = xs.length + 1 := by simp
    rw [List.enumFrom_cons]
    by_cases hx : x = 0
    · have hfil : (((k, x) :: List.enumFrom (k + 1) xs).filter (fun p => p.2 ≠ 0))
          = (List.enumFrom (k + 1) xs).filter (fun p => p.2 ≠ 0) := by
        simp [List.filter_cons, hx]
      rw [hfil, ih (k + 1) init (by simpa using (by omega : (k + 1) + xs.length ≤ init.length)) j]
      by_cases hj : k + 1 ≤ j
      · have hjk : j - k = (j - (k + 1)) + 1 := by omega
        rw [hjk, List.getD_cons_succ]
        by_cases hc : j < k + 1 + xs.length ∧ xs.getD (j - (k + 1)) 0 ≠ 0
        · rw [if_pos ⟨hj, hc.1, hc.2⟩, if_pos ⟨by omega, by omega, hc.2⟩]
        · rw [if_neg (by rintro ⟨a, b, c⟩; exact hc ⟨b, c⟩),
            if_neg (by rintro ⟨a, b, c⟩; exact hc ⟨by simpa using (by omega : j < k + 1 + xs.length), c⟩)]
      · by_cases hjk : j = k
        · subst hjk
          rw [if_neg (by rintro ⟨a, b, c⟩; omega),
            if_neg (by rintro ⟨a, b, c⟩; simp [hx] at c)]
        · rw [if_neg (by rintro ⟨a, b, c⟩; omega), if_neg (by rintro ⟨a, b, c⟩; omega)]
    · have hfil : (((k, x) :: List.enumFrom (k + 1) xs).filter (fun p => p.2 ≠ 0))
          = (k, x) :: (List.enumFrom (k + 1) xs).filter (fun p => p.2 ≠ 0) := by
        simp [List.filter_cons, hx]
      rw [hfil, aux_applyObj_cons]
      by_cases hjk : j = k
      · subst hjk
        have hjlen : j < (applyObjEntries ((List.enumFrom (j + 1) xs).filter
            (fun p => p.2 ≠ 0)) init).length := by
          rw [aux_applyObj_length]; omega
        rw [aux_getD_set_self _ _ _ _ hjlen]
        rw [if_pos ⟨le_refl j, by omega, by simpa using hx⟩]
        simp
      · rw [aux_getD_set_ne _ _ _ _ _ hjk,
          ih (k + 1) init (by omega) j]
        by_cases hj : k + 1 ≤ j
        · have hjk2 : j - k = (j - (k + 1)) + 1 := by omega
          rw [hjk2, List.getD_cons_succ]
          by_cases hc : j < k + 1 + xs.length ∧ xs.getD (j - (k + 1)) 0 ≠ 0
          · rw [if_pos ⟨hj, hc.1, hc.2⟩, if_pos ⟨by omega, by omega, hc.2⟩]
          · rw [if_neg (by rintro ⟨a, b, c⟩; exact hc ⟨b, c⟩),
              if_neg (by rintro ⟨a, b, c⟩; exact hc ⟨by omega, c⟩)]
        · rw [if_neg (by rintro ⟨a, b, c⟩; omega), if_neg (by rintro ⟨a, b, c⟩; omega)]

theorem aux_restore_id (l : List (Option ℚ)) :
    restoreFinite (l.map (Option.map (fun _ => 0))) (l.map (fun b => b.getD 0)) = l := by
  induction l with
  | nil => rfl
  | cons b l ih =>
    cases b with
    | none => simpa [restoreFinite] using ih
    | some v => simpa [restoreFinite] using ih

/-- C6: `_transformUnbounded` followed by `_untransformUnbounded` is the
identity on the original LP: the auxiliary row and auxiliary column are
removed so the row and column counts return to their original values, the
objective coefficients are recovered exactly from the stored objective row
(zero coefficients stay zero because the stored row is sparse and the
transform zeroed them), and every finite bound and finite side is restored
exactly to its stored value while infinite ones are untouched.  The LP is
modelled in exact rationals; under `R = Rational` both the rational and
the floating-point LP of the template follow this computation. -/
theorem C6_unbounded_roundtrip (lp : RatLP) (h : lp.WF) :
    untransformUnbounded (transformUnbounded lp).1 (transformUnbounded lp).2 = lp := by
  obtain ⟨obj, lo, up, lh, rh, rws⟩ := lp
  obtain ⟨h1, h2, h3, h4, h5⟩ := h
  dsimp only at h1 h2 h3 h4 h5
  unfold transformUnbounded untransformUnbounded
  dsimp only
  have hN : (obj.map (fun _ => (0:ℚ)) ++ [(1:ℚ)]).length - 1 = obj.length := by simp
  have hM : (rws ++ [toSparseVec obj ++ [(obj.length, (-1 : ℚ))]]).length - 1
      = rws.length := by simp
  rw [hN, hM]
  have hROW : (rws ++ [toSparseVec obj ++ [(obj.length, (-1 : ℚ))]]).getD rws.length []
      = toSparseVec obj ++ [(obj.length, (-1 : ℚ))] := by
    rw [List.getD_eq_getElem _ _ (by simp)]
    exact List.getElem_concat_length rws _ _ rfl _
  rw [hROW]
  simp only [RatLP.mk.injEq]
  refine ⟨?_, ?_, ?_, ?_, ?_, ?_⟩
  · -- objective round trip
    rw [aux_applyObj_append]
    have hsingle : applyObjEntries [(obj.length, (-1 : ℚ))]
        (obj.map (fun _ => (0:ℚ)) ++ [1])
        = (obj.map (fun _ => (0:ℚ)) ++ [1]).set obj.length (-1) := rfl
    rw [hsingle]
    have hinit : ∀ j < obj.length,
        ((obj.map (fun _ => (0:ℚ)) ++ [1]).set obj.length (-1)).getD j 0 = 0 := by
      intro j hj
      rw [aux_getD_set_ne _ _ _ _ _ (by omega)]
      rw [List.getD_append _ _ _ _ (by simpa using hj)]
      rw [aux_getD_map (fun _ => (0:ℚ)) obj j 0 0 hj]
    apply List.ext_getElem
    · simp [aux_applyObj_length]
    · intro i hi1 hi2
      rw [List.getElem_take]
      have hb : i < (applyObjEntries (toSparseVec obj)
          ((obj.map (fun _ => (0:ℚ)) ++ [1]).set obj.length (-1))).length := by
        rw [aux_applyObj_length]
        simp only [List.length_set, List.length_append, List.length_map, List.length_cons,
          List.length_nil]
        omega
      have hp : (applyObjEntries (toSparseVec obj)
          ((obj.map (fun _ => (0:ℚ)) ++ [1]).set obj.length (-1))).getD i 0
          = obj.getD i 0 := by
        have henum : toSparseVec obj
            = (List.enumFrom 0 obj).filter (fun p => p.2 ≠ 0) := rfl
        rw [henum, aux_applyObj_enum obj 0 _
          (by simp only [List.length_set, List.length_append, List.length_map,
            List.length_cons, List.length_nil]; omega) i]
        by_cases hz : obj.getD i 0 = 0
        · rw [if_neg (by rintro ⟨a, b, c⟩; simp only [Nat.sub_zero] at c; exact c hz)]
          rw [hinit i hi2, hz]
        · rw [if_pos ⟨Nat.zero_le i, by omega, by simpa using hz⟩]
          simp
      rwa [List.getD_eq_getElem _ _ hb, List.getD_eq_getElem _ _ hi2] at hp
  · -- lower bounds
    rw [List.take_left' (by simp [h1])]
    exact aux_restore_id lo
  · -- upper bounds
    rw [List.take_left' (by simp [h2])]
    exact aux_restore_id up
  · -- left-hand sides
    rw [List.take_left' (by simp [h3])]
    exact aux_restore_id lh
  · -- right-hand sides
    rw [List.take_left' (by simp [h4])]
    exact aux_restore_id rh
  · -- coefficient rows
    rw [List.take_left' rfl]
    have hfil : ∀ r ∈ rws, r.filter (fun e => decide (e.1 ≠ obj.length)) = r := by
      intro r hr
      apply List.filter_eq_self.mpr
      intro e he
      have := h5 r hr e he
      simp only [decide_eq_true_eq]
      omega
    calc rws.map (fun r => r.filter (fun e => decide (e.1 ≠ obj.length)))
        = rws.map id := List.map_congr_left hfil
      _ = rws := List.map_id rws

theorem C6_unbounded_witness :
    lpExample.WF ∧
    untransformUnbounded (transformUnbounded lpExample).1 (transformUnbounded lpExample).2
      = lpExample :=
  ⟨by decide, C6_unbounded_roundtrip lpExample (by decide)⟩

/-! ## C1: the semi-sparse vector invariant -/

theorem aux_getD_replicate (n i : ℕ) : (List.replicate n (0:ℚ)).getD i 0 = 0 := by
  rcases lt_or_ge i n with h | h
  · rw [List.getD_eq_getElem _ _ (by simpa using h)]
    simp
  · rw [List.getD_eq_default _ _ (by simpa using h)]

theorem aux_getD_set_zero (l : List ℚ) (j : ℕ) : (l.set j 0).getD j 0 = 0 := by
  rcases lt_or_ge j l.length with h | h
  · exact aux_getD_set_self l j 0 0 h
  · rw [List.set_eq_of_length_le (by simpa using h)]
    rw [List.getD_eq_default _ _ (by simpa using h)]

theorem aux_zeroFold_length (js : List ℕ) (l : List ℚ) :
    (js.foldl (fun a j => a.set j 0) l).length = l.length := by
  induction js generalizing l with
  | nil => rfl
  | cons j js ih => rw [List.foldl_cons, ih, List.length_set]

theorem aux_zeroFold_getD (js : List ℕ) (l : List ℚ) (i : ℕ) :
    (js.foldl (fun a j => a.set j 0) l).getD i 0
      = if i ∈ js then 0 else l.getD i 0 := by
  induction js generalizing l with
  | nil => simp
  | cons j js ih =>
    rw [List.foldl_cons, ih]
    by_cases hm : i ∈ js
    · simp [hm]
    · by_cases hij : i = j
      · subst hij
        rw [if_neg hm, if_pos (List.mem_cons_self _ _), aux_getD_set_zero]
      · rw [aux_getD_set_ne _ _ _ _ _ hij]
        simp [hm, hij]

theorem aux_setup_SStrong (v : SSVec) (hs : v.setupStatus = false) :
    SStrong (SSVec.setup v).val (SSVec.setup v).idx (SSVec.setup v).eps
      ∧ (SSVec.setup v).setupStatus = true := by
  unfold SSVec.setup
  rw [if_neg (by simp [hs])]
  refine ⟨⟨?_, ?_, ?_⟩, rfl⟩
  · exact (List.nodup_range _).filter _
  · intro j hj
    have h1 := (List.mem_filter.mp hj).1
    simpa using List.mem_range.mp h1
  · intro i hi
    dsimp only at hi ⊢
    rw [List.length_map] at hi
    rw [aux_getD_map _ _ _ _ 0 hi]
    constructor
    · rw [List.mem_filter, List.mem_range]
      constructor
      · rintro ⟨-, hdec⟩
        have hc := of_decide_eq_true hdec
        rw [if_pos hc.2]
        exact hc.1
      · intro hne
        by_cases hb : v.eps < |v.val.getD i 0|
        · rw [if_pos hb] at hne
          exact ⟨hi, decide_eq_true ⟨hne, hb⟩⟩
        · rw [if_neg hb] at hne
          exact absurd rfl hne
    · intro hne
      by_cases hb : v.eps < |v.val.getD i 0|
      · rwa [if_pos hb] at hne ⊢
      · rw [if_neg hb] at hne
        exact absurd rfl hne

theorem aux_setup_pres (v : SSVec) (hv : v.SInv) : (SSVec.setup v).SInv := by
  by_cases hs : v.setupStatus = true
  · unfold SSVec.setup
    rw [if_pos hs]
    exact hv
  · intro _
    exact (aux_setup_SStrong v (by simpa using hs)).1

theorem aux_resetup_SInv (v : SSVec) : (SSVec.resetup v).SInv := by
  intro _
  exact (aux_setup_SStrong { v with setupStatus := false } rfl).1

theorem aux_clear_pres (v : SSVec) (hv : v.SInv) : (v.clear).SInv := by
  unfold SSVec.clear
  by_cases hs : v.setupStatus = true
  · rw [if_pos hs]
    obtain ⟨hnd, hbd, hiv⟩ := hv hs
    intro _
    refine ⟨List.nodup_nil, by simp, ?_⟩
    intro i hi
    dsimp only at hi ⊢
    rw [aux_zeroFold_length] at hi
    rw [aux_zeroFold_getD]
    by_cases hm : i ∈ v.idx
    · simp [hm]
    · have h0 : v.val.getD i 0 = 0 := by
        by_contra hne
        exact hm ((hiv i hi).1.mpr hne)
      rw [if_neg hm, h0]
      simp
  · rw [if_neg hs]
    intro _
    refine ⟨List.nodup_nil, by simp, ?_⟩
    intro i hi
    dsimp only
    simp [aux_getD_replicate]

theorem aux_setValue_pres (v : SSVec) (i : ℕ) (x : ℚ) (heps : 0 ≤ v.eps)
    (hv : v.SInv) (hi : i < v.val.length) (hx : x = 0 ∨ v.eps < |x|) :
    (v.setValue i x).SInv := by
  unfold SSVec.setValue
  by_cases hs : v.setupStatus = true
  case neg =>
    rw [if_neg hs]
    intro hc
    exact absurd hc hs
  case pos =>
  rw [if_pos hs]
  obtain ⟨hnd, hbd, hiv⟩ := hv hs
  by_cases hm : i ∈ v.idx
  · rw [if_pos hm]
    by_cases hx0 : x = 0
    · rw [if_pos hx0]
      intro _
      refine ⟨hnd.erase i, ?_, ?_⟩
      · intro j hj
        dsimp only
        rw [List.length_set]
        exact hbd j (List.mem_of_mem_erase hj)
      · intro k hk
        dsimp only at hk ⊢
        rw [List.length_set] at hk
        rw [hnd.mem_erase_iff]
        by_cases hki : k = i
        · subst hki
          subst hx0
          rw [aux_getD_set_zero]
          simp
        · rw [aux_getD_set_ne _ _ _ _ _ hki]
          constructor
          · constructor
            · rintro ⟨-, hkm⟩
              exact (hiv k hk).1.mp hkm
            · intro hne
              exact ⟨hki, (hiv k hk).1.mpr hne⟩
          · exact (hiv k hk).2
    · rw [if_neg hx0]
      rcases hx with hc | hxbig
      · exact absurd hc hx0
      intro _
      refine ⟨hnd, ?_, ?_⟩
      · intro j hj
        dsimp only
        rw [List.length_set]
        exact hbd j hj
      · intro k hk
        dsimp only at hk ⊢
        rw [List.length_set] at hk
        by_cases hki : k = i
        · subst hki
          rw [aux_getD_set_self _ _ _ _ hi]
          have hxne : x ≠ 0 := hx0
          simp [hm, hxne, hxbig]
        · rw [aux_getD_set_ne _ _ _ _ _ hki]
          exact hiv k hk
  · rw [if_neg hm]
    have hval0 : v.val.getD i 0 = 0 := by
      by_contra hne
      exact hm ((hiv i hi).1.mpr hne)
    rcases hx with hx0 | hxbig
    · subst hx0
      rw [if_neg (by push_neg; constructor <;> linarith)]
      intro _
      refine ⟨hnd, ?_, ?_⟩
      · intro j hj
        dsimp only
        rw [List.length_set]
        exact hbd j hj
      · intro k hk
        dsimp only at hk ⊢
        rw [List.length_set] at hk
        by_cases hki : k = i
        · subst hki
          rw [aux_getD_set_zero]
          simp [hm]
        · rw [aux_getD_set_ne _ _ _ _ _ hki]
          exact hiv k hk
    · rw [if_pos ((aux_abs_cond _ _).mpr hxbig)]
      intro _
      have hxne : x ≠ 0 := by
        intro h0
        rw [h0] at hxbig
        simp at hxbig
        linarith
      refine ⟨?_, ?_, ?_⟩
      · rw [List.nodup_append]
        exact ⟨hnd, List.nodup_singleton i, by
          intro a ha hai
          rw [List.mem_singleton] at hai
          subst hai
          exact hm ha⟩
      · intro j hj
        dsimp only at hj ⊢
        rw [List.length_set]
        rcases List.mem_append.mp hj with h | h
        · exact hbd j h
        · rw [List.mem_singleton] at h
          subst h
          exact hi
      · intro k hk
        dsimp only at hk ⊢
        rw [List.length_set] at hk
        rw [List.mem_append, List.mem_singleton]
        by_cases hki : k = i
        · subst hki
          rw [aux_getD_set_self _ _ _ _ hi]
          simp [hxne, hxbig]
        · rw [aux_getD_set_ne _ _ _ _ _ hki]
          simp only [hki, or_false]
          exact hiv k hk

theorem aux_SInv_Inv (v : SSVec) (heps : 0 ≤ v.eps) (hv : v.SInv) : v.Inv := by
  intro hs i hi
  obtain ⟨-, -, hiv⟩ := hv hs
  constructor
  · intro habs
    have hne : v.val.getD i 0 ≠ 0 := by
      intro h0
      rw [h0] at habs
      simp at habs
      linarith
    exact (hiv i hi).1.mpr hne
  · intro hm
    exact (hiv i hi).2 ((hiv i hi).1.mp hm)

theorem aux_foldl_set_length {β : Type} (xs : List β) (p : List ℚ → β → ℕ)
    (q : List ℚ → β → ℚ) (l : List ℚ) :
    (xs.foldl (fun u b => u.set (p u b) (q u b)) l).length = l.length := by
  induction xs generalizing l with
  | nil => rfl
  | cons x xs ih => rw [List.foldl_cons, ih, List.length_set]

theorem aux_setup_val_length (v : SSVec) : (SSVec.setup v).val.length = v.val.length := by
  unfold SSVec.setup
  split_ifs <;> simp

theorem aux_setup_eps (v : SSVec) : (SSVec.setup v).eps = v.eps := by
  unfold SSVec.setup
  split_ifs <;> rfl

theorem aux_resetup_len (v : SSVec) : (SSVec.resetup v).val.length = v.val.length := by
  unfold SSVec.resetup SSVec.setup
  rw [if_neg (by simp)]
  simp

theorem aux_resetup_eps (v : SSVec) : (SSVec.resetup v).eps = v.eps := by
  unfold SSVec.resetup SSVec.setup
  rw [if_neg (by simp)]

theorem aux_setValue_len (v : SSVec) (i : ℕ) (x : ℚ) :
    (v.setValue i x).val.length = v.val.length := by
  unfold SSVec.setValue
  split_ifs <;> simp

theorem aux_setValue_eps (v : SSVec) (i : ℕ) (x : ℚ) :
    (v.setValue i x).eps = v.eps := by
  unfold SSVec.setValue
  split_ifs <;> rfl

theorem aux_clear_len (v : SSVec) : (v.clear).val.length = v.val.length := by
  unfold SSVec.clear
  split_ifs
  · exact aux_zeroFold_length v.idx v.val
  · simp

theorem aux_clear_eps (v : SSVec) : (v.clear).eps = v.eps := by
  unfold SSVec.clear
  split_ifs <;> rfl

theorem aux_fresh_SInv (d : ℕ) (eps : ℚ) : (SSVec.fresh d eps).SInv := by
  intro _
  refine ⟨List.nodup_nil, ?_, ?_⟩ <;> simp [SSVec.fresh, aux_getD_replicate]

theorem aux_SStrong_set (val : List ℚ) (idx : List ℕ) (eps x : ℚ) (j : ℕ)
    (h : SStrong val idx eps) (hj : j < val.length) (hjm : j ∈ idx)
    (hx : x ≠ 0) (hxe : eps < |x|) : SStrong (val.set j x) idx eps := by
  obtain ⟨hnd, hbd, hiv⟩ := h
  refine ⟨hnd, ?_, ?_⟩
  · intro k hk
    rw [List.length_set]
    exact hbd k hk
  · intro i hi
    rw [List.length_set] at hi
    by_cases hij : i = j
    · subst hij
      rw [aux_getD_set_self _ _ _ _ hj]
      exact ⟨iff_of_true hjm hx, fun _ => hxe⟩
    · rw [aux_getD_set_ne _ _ _ _ _ hij]
      exact hiv i hi

theorem aux_SStrong_add (val : List ℚ) (idx : List ℕ) (eps x : ℚ) (j : ℕ)
    (h : SStrong val idx eps) (hj : j < val.length) (hjm : j ∉ idx)
    (hx : x ≠ 0) (hxe : eps < |x|) : SStrong (val.set j x) (idx ++ [j]) eps := by
  obtain ⟨hnd, hbd, hiv⟩ := h
  refine ⟨?_, ?_, ?_⟩
  · rw [List.nodup_append]
    refine ⟨hnd, List.nodup_singleton _, ?_⟩
    intro b hb hb2
    rw [List.mem_singleton] at hb2
    subst hb2
    exact hjm hb
  · intro k hk
    rw [List.length_set]
    rcases List.mem_append.mp hk with hk | hk
    · exact hbd k hk
    · rw [List.mem_singleton] at hk
      subst hk
      exact hj
  · intro i hi
    rw [List.length_set] at hi
    rw [List.mem_append, List.mem_singleton]
    by_cases hij : i = j
    · subst hij
      rw [aux_getD_set_self _ _ _ _ hj]
      exact ⟨iff_of_true (Or.inr rfl) hx, fun _ => hxe⟩
    · rw [aux_getD_set_ne _ _ _ _ _ hij]
      simp only [hij, or_false]
      exact hiv i hi

theorem aux_multSVstep_P1 (a eps : ℚ) (heps : 0 ≤ eps) (n : ℕ)
    (st : List ℚ × List ℕ × Bool) (e : ℕ × ℚ) (he : e.1 < n)
    (h : P1Inv eps n st) : P1Inv eps n (multSVstep a eps st e) := by
  obtain ⟨hlen, hnd, hbd, hmem, hadj⟩ := h
  have he2 : e.1 < st.1.length := by rw [hlen]; exact he
  have hstep : multSVstep a eps st e =
      (if st.1.getD e.1 0 ≠ 0 then
        (if eps < st.1.getD e.1 0 + a * e.2 ∨ st.1.getD e.1 0 + a * e.2 < -eps then
          (st.1.set e.1 (st.1.getD e.1 0 + a * e.2), st.2.1, st.2.2)
        else (st.1.set e.1 ssmark, st.2.1, true))
      else
        (if eps < a * e.2 ∨ a * e.2 < -eps then
          (st.1.set e.1 (a * e.2), st.2.1 ++ [e.1], st.2.2)
        else st)) := rfl
  rw [hstep]
  by_cases h0 : st.1.getD e.1 0 = 0
  · rw [if_neg (not_not_intro h0)]
    by_cases hc : eps < a * e.2 ∨ a * e.2 < -eps
    · rw [if_pos hc]
      have hx : eps < |a * e.2| := (aux_abs_cond _ _).mp hc
      have hxne : a * e.2 ≠ 0 := by
        intro hz
        rw [hz] at hx
        simp at hx
        linarith
      have hni : e.1 ∉ st.2.1 := fun hmm => (hmem e.1 he).mp hmm h0
      refine ⟨by rw [List.length_set]; exact hlen, ?_, ?_, ?_, ?_⟩
      · rw [List.nodup_append]
        refine ⟨hnd, List.nodup_singleton _, ?_⟩
        intro b hb hb2
        rw [List.mem_singleton] at hb2
        subst hb2
        exact hni hb
      · intro j hj
        rcases List.mem_append.mp hj with hj | hj
        · exact hbd j hj
        · rw [List.mem_singleton] at hj
          subst hj
          exact he
      · intro i hi
        rw [List.mem_append, List.mem_singleton]
        by_cases hie : i = e.1
        · subst hie
          rw [aux_getD_set_self _ _ _ _ he2]
          exact iff_of_true (Or.inr rfl) hxne
        · rw [aux_getD_set_ne _ _ _ _ _ hie]
          simp only [hie, or_false]
          exact hmem i hi
      · intro hfl i hi
        by_cases hie : i = e.1
        · subst hie
          rw [aux_getD_set_self _ _ _ _ he2]
          exact fun _ => hx
        · rw [aux_getD_set_ne _ _ _ _ _ hie]
          exact hadj hfl i hi
    · rw [if_neg hc]
      exact ⟨hlen, hnd, hbd, hmem, hadj⟩
  · rw [if_pos h0]
    by_cases hc : eps < st.1.getD e.1 0 + a * e.2 ∨ st.1.getD e.1 0 + a * e.2 < -eps
    · rw [if_pos hc]
      have hx : eps < |st.1.getD e.1 0 + a * e.2| := (aux_abs_cond _ _).mp hc
      have hxne : st.1.getD e.1 0 + a * e.2 ≠ 0 := by
        intro hz
        rw [hz] at hx
        simp at hx
        linarith
      refine ⟨by rw [List.length_set]; exact hlen, hnd, hbd, ?_, ?_⟩
      · intro i hi
        by_cases hie : i = e.1
        · subst hie
          rw [aux_getD_set_self _ _ _ _ he2]
          exact iff_of_true ((hmem e.1 hi).mpr h0) hxne
        · rw [aux_getD_set_ne _ _ _ _ _ hie]
          exact hmem i hi
      · intro hfl i hi
        by_cases hie : i = e.1
        · subst hie
          rw [aux_getD_set_self _ _ _ _ he2]
          exact fun _ => hx
        · rw [aux_getD_set_ne _ _ _ _ _ hie]
          exact hadj hfl i hi
    · rw [if_neg hc]
      refine ⟨by rw [List.length_set]; exact hlen, hnd, hbd, ?_, ?_⟩
      · intro i hi
        by_cases hie : i = e.1
        · subst hie
          rw [aux_getD_set_self _ _ _ _ he2]
          exact iff_of_true ((hmem e.1 hi).mpr h0) (by norm_num [ssmark])
        · rw [aux_getD_set_ne _ _ _ _ _ hie]
          exact hmem i hi
      · intro hfl
        simp at hfl

theorem aux_multSV_fold_P1 (a eps : ℚ) (heps : 0 ≤ eps) (n : ℕ) (sv : List (ℕ × ℚ))
    (hsv : ∀ e ∈ sv, e.1 < n) (st : List ℚ × List ℕ × Bool) (h : P1Inv eps n st) :
    P1Inv eps n (sv.foldl (multSVstep a eps) st) := by
  induction sv generalizing st with
  | nil => exact h
  | cons e rest ih =>
    rw [List.foldl_cons]
    exact ih (fun f hf => hsv f (List.mem_cons_of_mem _ hf)) _
      (aux_multSVstep_P1 a eps heps n st e (hsv e (List.mem_cons_self _ _)) h)

theorem aux_adjFold (eps : ℚ) (js : List ℕ) (val : List ℚ) (acc : List ℕ)
    (hnd : js.Nodup) :
    (js.foldl (adjStep eps) (val, acc)).1.length = val.length ∧
    (∀ i, i ∉ js → (js.foldl (adjStep eps) (val, acc)).1.getD i 0 = val.getD i 0) ∧
    (∀ i ∈ js, (js.foldl (adjStep eps) (val, acc)).1.getD i 0
        = if eps < |val.getD i 0| then val.getD i 0 else 0) ∧
    (js.foldl (adjStep eps) (val, acc)).2
      = acc ++ js.filter (fun j => decide (eps < |val.getD j 0|)) := by
  induction js generalizing val acc with
  | nil =>
    exact ⟨rfl, fun _ _ => rfl, fun i hi => absurd hi (List.not_mem_nil i), by simp⟩
  | cons j js ih =>
    have hstep : adjStep eps (val, acc) j =
        (if eps < val.getD j 0 ∨ val.getD j 0 < -eps then (val, acc ++ [j])
         else (val.set j 0, acc)) := rfl
    rw [List.foldl_cons, hstep]
    have hjn : j ∉ js := (List.nodup_cons.mp hnd).1
    by_cases hc : eps < val.getD j 0 ∨ val.getD j 0 < -eps
    · rw [if_pos hc]
      have habs : eps < |val.getD j 0| := (aux_abs_cond _ _).mp hc
      obtain ⟨ih1, ih2, ih3, ih4⟩ := ih val (acc ++ [j]) hnd.of_cons
      refine ⟨ih1, ?_, ?_, ?_⟩
      · intro i hi
        exact ih2 i (fun hmm => hi (List.mem_cons_of_mem _ hmm))
      · intro i hi
        rcases List.mem_cons.mp hi with hij | hij
        · subst hij
          rw [ih2 i hjn, if_pos habs]
        · exact ih3 i hij
      · rw [ih4, List.filter_cons, if_pos (decide_eq_true habs)]
        simp
    · rw [if_neg hc]
      have habs : ¬ eps < |val.getD j 0| := fun h => hc ((aux_abs_cond _ _).mpr h)
      obtain ⟨ih1, ih2, ih3, ih4⟩ := ih (val.set j 0) acc hnd.of_cons
      refine ⟨by rw [ih1, List.length_set], ?_, ?_, ?_⟩
      · intro i hi
        have hij : i ≠ j := fun heq => hi (heq ▸ List.mem_cons_self _ _)
        rw [ih2 i (fun hmm => hi (List.mem_cons_of_mem _ hmm)),
          aux_getD_set_ne _ _ _ _ _ hij]
      · intro i hi
        rcases List.mem_cons.mp hi with hij | hij
        · subst hij
          rw [ih2 i hjn, aux_getD_set_zero, if_neg habs]
        · have hij2 : i ≠ j := fun heq => hjn (heq ▸ hij)
          rw [ih3 i hij, aux_getD_set_ne _ _ _ _ _ hij2]
      · rw [ih4, List.filter_cons, if_neg (by simpa using habs)]
        congr 1
        refine List.filter_congr ?_
        intro i hi
        have hij : i ≠ j := fun heq => hjn (heq ▸ hi)
        rw [aux_getD_set_ne _ _ _ _ _ hij]

theorem aux_multAddSV_pres (v : SSVec) (a : ℚ) (sv : List (ℕ × ℚ)) (heps : 0 ≤ v.eps)
    (hv : v.SInv) (hsv : ∀ e ∈ sv, e.1 < v.val.length) :
    (v.multAddSV a sv).SInv ∧ (v.multAddSV a sv).val.length = v.val.length ∧
    (v.multAddSV a sv).eps = v.eps := by
  unfold SSVec.multAddSV
  by_cases hs : v.setupStatus = true
  case neg =>
    rw [if_neg hs]
    refine ⟨fun hc => absurd hc hs, ?_, rfl⟩
    exact aux_foldl_set_length sv (fun u e => e.1)
      (fun u e => u.getD e.1 0 + a * e.2) v.val
  case pos =>
  rw [if_pos hs]
  obtain ⟨hS1, hS2, hS3⟩ := hv hs
  have hp : P1Inv v.eps v.val.length
      (sv.reverse.foldl (multSVstep a v.eps) (v.val, v.idx, false)) :=
    aux_multSV_fold_P1 a v.eps heps v.val.length sv.reverse
      (fun e he2 => hsv e (List.mem_reverse.mp he2)) (v.val, v.idx, false)
      ⟨rfl, hS1, hS2, fun i hi => (hS3 i hi).1, fun _ i hi => (hS3 i hi).2⟩
  dsimp only
  generalize hgen : sv.reverse.foldl (multSVstep a v.eps) (v.val, v.idx, false) = p at hp ⊢
  obtain ⟨p1, p2, p3⟩ := p
  obtain ⟨hplen, hpnd, hpbd, hpmem, hpadj⟩ := hp
  dsimp only at hpbd hpmem hpadj ⊢
  cases p3 with
  | true =>
    rw [if_pos rfl]
    obtain ⟨hq1, hq2, hq3, hq4⟩ := aux_adjFold v.eps p2 p1 [] hpnd
    rw [List.nil_append] at hq4
    refine ⟨?_, ?_, rfl⟩
    · intro _
      refine ⟨?_, ?_, ?_⟩
      · rw [hq4]
        exact hpnd.filter _
      · intro j hj
        dsimp only
        rw [hq1, hplen]
        rw [hq4] at hj
        exact hpbd j (List.mem_filter.mp hj).1
      · intro i hi
        dsimp only at hi ⊢
        rw [hq1, hplen] at hi
        rw [hq4]
        by_cases hm : i ∈ p2
        · rw [hq3 i hm]
          by_cases hb : v.eps < |p1.getD i 0|
          · rw [if_pos hb]
            have hne : p1.getD i 0 ≠ 0 := (hpmem i hi).mp hm
            refine ⟨iff_of_true (List.mem_filter.mpr ⟨hm, decide_eq_true hb⟩) hne, fun _ => hb⟩
          · rw [if_neg hb]
            refine ⟨?_, by simp⟩
            simp only [ne_eq, not_true_eq_false, iff_false]
            intro hf
            exact hb (of_decide_eq_true (List.mem_filter.mp hf).2)
        · have h0 : p1.getD i 0 = 0 := by
            by_contra hne
            exact hm ((hpmem i hi).mpr hne)
          rw [hq2 i hm, h0]
          refine ⟨?_, by simp⟩
          simp only [ne_eq, not_true_eq_false, iff_false]
          intro hf
          exact hm (List.mem_filter.mp hf).1
    · dsimp only
      rw [hq1, hplen]
  | false =>
    rw [if_neg (by simp)]
    refine ⟨?_, hplen, rfl⟩
    intro _
    refine ⟨hpnd, ?_, ?_⟩
    · intro j hj
      dsimp only
      rw [hplen]
      exact hpbd j hj
    · intro i hi
      dsimp only at hi ⊢
      rw [hplen] at hi
      exact ⟨hpmem i hi, hpadj rfl i hi⟩

theorem aux_multSSVloop_pres (a eps : ℚ) (heps : 0 ≤ eps) (n : ℕ) (es : List (ℕ × ℚ))
    (val : List ℚ) (idx : List ℕ) (hes : ∀ e ∈ es, e.1 < n) (hlen : val.length = n)
    (hS : SStrong val idx eps) :
    (multSSVloop a eps es val idx).1.length = n ∧
    ((multSSVloop a eps es val idx).2.2 = true →
      SStrong (multSSVloop a eps es val idx).1 (multSSVloop a eps es val idx).2.1 eps) := by
  induction es generalizing val idx with
  | nil => exact ⟨hlen, fun _ => hS⟩
  | cons e rest ih =>
    rw [multSSVloop]
    dsimp only
    have he : e.1 < n := hes e (List.mem_cons_self _ _)
    have he2 : e.1 < val.length := by rw [hlen]; exact he
    have hrest : ∀ f ∈ rest, f.1 < n := fun f hf => hes f (List.mem_cons_of_mem _ hf)
    by_cases h0 : val.getD e.1 0 = 0
    · rw [if_neg (not_not_intro h0)]
      by_cases hc : eps < a * e.2 ∨ a * e.2 < -eps
      · rw [if_pos hc]
        have habs : eps < |a * e.2| := (aux_abs_cond _ _).mp hc
        have hne : a * e.2 ≠ 0 := by
          intro hz
          rw [hz] at habs
          simp at habs
          linarith
        have hnm : e.1 ∉ idx := fun hmm => (hS.2.2 e.1 he2).1.mp hmm h0
        exact ih _ _ hrest (by rw [List.length_set]; exact hlen)
          (aux_SStrong_add val idx eps (a * e.2) e.1 hS he2 hnm hne habs)
      · rw [if_neg hc]
        exact ih _ _ hrest hlen hS
    · rw [if_pos h0]
      by_cases hc : eps < val.getD e.1 0 + a * e.2 ∨ val.getD e.1 0 + a * e.2 < -eps
      · rw [if_pos hc]
        have habs : eps < |val.getD e.1 0 + a * e.2| := (aux_abs_cond _ _).mp hc
        have hne : val.getD e.1 0 + a * e.2 ≠ 0 := by
          intro hz
          rw [hz] at habs
          simp at habs
          linarith
        have hm : e.1 ∈ idx := (hS.2.2 e.1 he2).1.mpr h0
        exact ih _ _ hrest (by rw [List.length_set]; exact hlen)
          (aux_SStrong_set val idx eps (val.getD e.1 0 + a * e.2) e.1 hS he2 hm hne habs)
      · rw [if_neg hc]
        refine ⟨?_, ?_⟩
        · exact (aux_foldl_set_length rest (fun u f => f.1)
            (fun u f => u.getD f.1 0 + a * f.2) (val.set e.1 0)).trans
            (by rw [List.length_set]; exact hlen)
        · intro hfl
          simp at hfl

theorem aux_multAddSSV_pres (v : SSVec) (a : ℚ) (w : SSVec) (heps : 0 ≤ v.eps)
    (hv : v.SInv) (hw : w.setupStatus = true) (hwb : ∀ j ∈ w.idx, j < v.val.length) :
    (v.multAddSSV a w).SInv ∧ (v.multAddSSV a w).val.length = v.val.length ∧
    (v.multAddSSV a w).eps = v.eps := by
  unfold SSVec.multAddSSV
  rw [if_pos hw]
  by_cases hs : v.setupStatus = true
  · rw [if_pos hs]
    dsimp only
    have hes : ∀ e ∈ (w.idx.map (fun j => (j, w.val.getD j 0))).reverse,
        e.1 < v.val.length := by
      intro e he
      rw [List.mem_reverse] at he
      obtain ⟨j, hj, rfl⟩ := List.mem_map.mp he
      exact hwb j hj
    have hkey := aux_multSSVloop_pres a v.eps heps v.val.length
      ((w.idx.map (fun j => (j, w.val.getD j 0))).reverse) v.val v.idx hes rfl (hv hs)
    refine ⟨?_, hkey.1, rfl⟩
    intro hss
    exact hkey.2 hss
  · rw [if_neg hs]
    refine ⟨fun hc => absurd hc hs, ?_, rfl⟩
    exact aux_foldl_set_length w.idx (fun u j => j)
      (fun u j => u.getD j 0 + a * w.val.getD j 0) v.val

theorem aux_multAddV_pres (v : SSVec) (a : ℚ) (w : List ℚ) (hw : w.length = v.val.length) :
    (v.multAddV a w).SInv ∧ (v.multAddV a w).val.length = v.val.length ∧
    (v.multAddV a w).eps = v.eps := by
  unfold SSVec.multAddV
  dsimp only
  by_cases hs : v.setupStatus = true
  · rw [if_pos hs]
    refine ⟨aux_resetup_SInv _, ?_, aux_resetup_eps _⟩
    rw [aux_resetup_len]
    dsimp only
    rw [List.length_zipWith, hw, Nat.min_self]
  · rw [if_neg hs]
    refine ⟨fun hc => absurd hc hs, ?_, rfl⟩
    dsimp only
    rw [List.length_zipWith, hw, Nat.min_self]

theorem aux_plusSV_pres (v : SSVec) (sv : List (ℕ × ℚ)) :
    (SSVec.plusSV v sv).SInv ∧ (SSVec.plusSV v sv).val.length = v.val.length ∧
    (SSVec.plusSV v sv).eps = v.eps := by
  unfold SSVec.plusSV
  dsimp only
  by_cases hs : v.setupStatus = true
  · rw [if_pos hs]
    refine ⟨aux_resetup_SInv _, ?_, aux_resetup_eps _⟩
    rw [aux_resetup_len]
    exact aux_foldl_set_length sv (fun u e => e.1) (fun u e => u.getD e.1 0 + e.2) v.val
  · rw [if_neg hs]
    exact ⟨fun hc => absurd hc hs,
      aux_foldl_set_length sv (fun u e => e.1) (fun u e => u.getD e.1 0 + e.2) v.val, rfl⟩

theorem aux_minusSV_pres (v : SSVec) (sv : List (ℕ × ℚ)) :
    (SSVec.minusSV v sv).SInv ∧ (SSVec.minusSV v sv).val.length = v.val.length ∧
    (SSVec.minusSV v sv).eps = v.eps := by
  unfold SSVec.minusSV
  dsimp only
  by_cases hs : v.setupStatus = true
  · rw [if_pos hs]
    refine ⟨aux_resetup_SInv _, ?_, aux_resetup_eps _⟩
    rw [aux_resetup_len]
    exact aux_foldl_set_length sv (fun u e => e.1) (fun u e => u.getD e.1 0 - e.2) v.val
  · rw [if_neg hs]
    exact ⟨fun hc => absurd hc hs,
      aux_foldl_set_length sv (fun u e => e.1) (fun u e => u.getD e.1 0 - e.2) v.val, rfl⟩

theorem aux_applyOp_pres (d : ℕ) (eps : ℚ) (heps : 0 ≤ eps) (v : SSVec) (op : SSOp)
    (hv : v.SInv) (hlen : v.val.length = d) (heq : v.eps = eps) (hop : ValidOp d eps op) :
    (v.applyOp op).SInv ∧ (v.applyOp op).val.length = d ∧ (v.applyOp op).eps = eps := by
  cases op with
  | setV i x =>
    obtain ⟨hi, hx⟩ := hop
    exact ⟨aux_setValue_pres v i x (by rw [heq]; exact heps) hv
        (by rw [hlen]; exact hi) (by rw [heq]; exact hx),
      (aux_setValue_len v i x).trans hlen, (aux_setValue_eps v i x).trans heq⟩
  | runSetup =>
    exact ⟨aux_setup_pres v hv, (aux_setup_val_length v).trans hlen,
      (aux_setup_eps v).trans heq⟩
  | runClear =>
    exact ⟨aux_clear_pres v hv, (aux_clear_len v).trans hlen, (aux_clear_eps v).trans heq⟩
  | axpySV a sv =>
    obtain ⟨-, hbd⟩ := hop
    have hkey := aux_multAddSV_pres v a sv (by rw [heq]; exact heps) hv
      (fun e he2 => by rw [hlen]; exact hbd e he2)
    exact ⟨hkey.1, hkey.2.1.trans hlen, hkey.2.2.trans heq⟩
  | axpySSV a w =>
    obtain ⟨hws, -, hwb⟩ := hop
    have hkey := aux_multAddSSV_pres v a w (by rw [heq]; exact heps) hv hws
      (fun j hj => by rw [hlen]; exact hwb j hj)
    exact ⟨hkey.1, hkey.2.1.trans hlen, hkey.2.2.trans heq⟩
  | axpyV a w =>
    have hkey := aux_multAddV_pres v a w (hop.trans hlen.symm)
    exact ⟨hkey.1, hkey.2.1.trans hlen, hkey.2.2.trans heq⟩
  | plusSV sv =>
    have hkey := aux_plusSV_pres v sv
    exact ⟨hkey.1, hkey.2.1.trans hlen, hkey.2.2.trans heq⟩
  | minusSV sv =>
    have hkey := aux_minusSV_pres v sv
    exact ⟨hkey.1, hkey.2.1.trans hlen, hkey.2.2.trans heq⟩

theorem aux_applyOps_pres (d : ℕ) (eps : ℚ) (heps : 0 ≤ eps) (ops : List SSOp)
    (v : SSVec) (hv : v.SInv) (hlen : v.val.length = d) (heq : v.eps = eps)
    (hops : ∀ op ∈ ops, ValidOp d eps op) :
    (v.applyOps ops).SInv ∧ (v.applyOps ops).val.length = d ∧
    (v.applyOps ops).eps = eps := by
  induction ops generalizing v with
  | nil => exact ⟨hv, hlen, heq⟩
  | cons op rest ih =>
    have hstep := aux_applyOp_pres d eps heps v op hv hlen heq
      (hops op (List.mem_cons_self _ _))
    exact ih (v.applyOp op) hstep.1 hstep.2.1 hstep.2.2
      (fun o ho => hops o (List.mem_cons_of_mem _ ho))

/-- C1: the claimed equivalence `isSetup → (eps < |val i| ↔ i ∈ idx)` fails
as stated: `setValue` at an indexed position removes the index only for an
argument that is exactly `0`, so writing the nonzero value `1` there with
`eps = 1` keeps the index although `eps < |1|` is false. -/
theorem C1_counterexample :
    (ssvExample3.applyOps [SSOp.setV 0 1]).setupStatus = true ∧
    ¬ (ssvExample3.applyOps [SSOp.setV 0 1]).Inv := by
  decide

/-- C1 (amended): starting from a freshly constructed vector, every
sequence of the mutating operations whose arguments are in range, whose
`setValue` values are zero or above epsilon in magnitude, and whose
semi-sparse arguments are set up, maintains the invariant that whenever
`isSetup` holds the index list is exactly the set of nonzero positions and
every nonzero value is above epsilon - and therefore the claimed
equivalence `eps < |val i| ↔ i ∈ idx` holds at every position.
Cancellation in `multAdd(Real, const SVector&)` rounds the cancelled value
to `0` and drops its index in the clean-up pass; cancellation in
`multAdd(Real, const SSVector&)` zeroes the value but exits via `unSetup`,
so the equivalence is only claimed when the vector is (re-)set up. -/
theorem C1_ssvector_invariant (d : ℕ) (eps : ℚ) (ops : List SSOp)
    (heps : 0 ≤ eps) (hops : ∀ op ∈ ops, ValidOp d eps op) :
    ((SSVec.fresh d eps).applyOps ops).SInv ∧
    ((SSVec.fresh d eps).applyOps ops).Inv := by
  have hkey := aux_applyOps_pres d eps heps ops (SSVec.fresh d eps)
    (aux_fresh_SInv d eps) (by simp [SSVec.fresh]) rfl hops
  refine ⟨hkey.1, aux_SInv_Inv _ ?_ hkey.1⟩
  rw [hkey.2.2]
  exact heps

theorem C1_ssvector_witness :
    ((0:ℚ) ≤ 1 ∧ ∀ op ∈ c1ops, ValidOp 2 1 op) ∧
    ((SSVec.fresh 2 1).applyOps c1ops).SInv ∧ ((SSVec.fresh 2 1).applyOps c1ops).Inv :=
  ⟨⟨by decide, by decide⟩, C1_ssvector_invariant 2 1 c1ops (by decide) (by decide)⟩

end Soplex
